import Mathlib

/-!
# A file-backed JSON record store: the driver of `main.go`

The development embeds the storage driver (`New`, `Write`, `Read`, `ReadAll`,
`Delete`, `GetOrCreateMutex`, `Stat`) together with the part of the Go
standard library it calls (`filepath.Clean`, `filepath.Join`, `os.Stat`,
`os.MkdirAll`, `os.WriteFile`, `os.Rename`, `os.ReadFile`, `os.ReadDir`,
`os.RemoveAll`).

Modelling conventions.

* A Go `string` is a list of characters; the path separator is `/`.
* The file system is a tree of directories, regular files and sockets; the
  socket stands for the objects that `os.Stat` reports as neither a directory
  nor a regular file.  There are no symbolic links, no permissions, no devices
  or pipes and no limit on the length of a name or of a path, and a single
  caller runs at a time, so a mutex only leaves a trace in the registry of
  the driver.
* A path names the location spelled by its lexically cleaned form: the tree
  is entered at the working directory, a rooted path goes through the entry
  `/` of the tree and a leading `..` through the entry `..`.
* `os.RemoveAll` refuses a path whose final element is `.` before it removes
  anything, as the Go library does; the kernel does not unlink `/` and `..`.
* The JSON codec is a parameter of `Write` and `Read`.
* The logger only receives the message of `New`, which `New` returns.

The claims about the driver are settled in the last section; the sections
before it hold the lemmas on paths, on the tree and on the system calls.
-/

namespace JsonDb

/-! ## Strings and paths -/

/-- Go strings. -/
abbrev Str := List Char

/-- Puts a character in front of the first piece of a split string. -/
def consHead (ch : Char) : List Str → List Str
  | [] => [[ch]]
  | w :: ws => (ch :: w) :: ws

/-- The pieces of a string between separators, as `strings.Split(s, "/")`. -/
def splitSep : Str → List Str
  | [] => [[]]
  | ch :: rest => if ch = '/' then [] :: splitSep rest else consHead ch (splitSep rest)

/-- The pieces joined by separators, as `strings.Join(elems, "/")`. -/
def joinSep : List Str → Str
  | [] => []
  | [e] => e
  | e :: e' :: es => e ++ '/' :: joinSep (e' :: es)

/-- Whether the path starts at the root of the file system. -/
def isRooted (p : Str) : Bool :=
  match p with
  | ch :: _ => ch = '/'
  | [] => false

/-- One path element met by `filepath.Clean`; `st` holds the elements kept so
far, the last one first.  Empty elements and `.` are dropped, `..` removes the
element before it, is dropped at the root, and is kept otherwise. -/
def cleanStep (rooted : Bool) (st : List Str) (e : Str) : List Str :=
  if e = [] ∨ e = ['.'] then st
  else if e = ['.', '.'] then
    match st with
    | [] => if rooted then [] else [e]
    | top :: rest => if top = ['.', '.'] then e :: st else rest
  else e :: st

/-- The elements that `filepath.Clean` keeps, in order. -/
def cleanElems (p : Str) : List Str :=
  ((splitSep p).foldl (cleanStep (isRooted p)) []).reverse

/-- The shortest path equivalent to `p` by lexical processing, as
`filepath.Clean`: the empty path becomes `.`. -/
def Clean (p : Str) : Str :=
  if isRooted p then '/' :: joinSep (cleanElems p)
  else if cleanElems p = [] then ['.']
  else joinSep (cleanElems p)

/-- The elements from the first non-empty one on, joined and cleaned, as
`filepath.Join`; the empty string when every element is empty. -/
def Join : List Str → Str
  | [] => []
  | e :: es => if e = [] then Join es else Clean (joinSep (e :: es))

/-- The location a path names: its cleaned elements, after the entry `/`
when the path is rooted. -/
def locate (p : Str) : List Str :=
  (if isRooted p then [['/']] else []) ++ cleanElems p

/-- Whether the final element of the path is `.`, as `endsWithDot` of
package `os`. -/
def endsWithDot (p : Str) : Bool :=
  match p.reverse with
  | ['.'] => true
  | '.' :: '/' :: _ => true
  | _ => false

/-! ## The file system -/

/-- The error numbers the model distinguishes. -/
inductive Errno where
  | ENOENT
  | ENOTDIR
  | EISDIR
  | EINVAL
  | EBUSY
  | ENOTEMPTY
  | ENXIO
  deriving DecidableEq, Repr

/-- A file system object: a regular file with its contents, a directory with
its entries, or a socket, which is neither a directory nor a regular file and
which `open` refuses with ENXIO. -/
inductive Node where
  | file (data : Str)
  | dir (entries : List (Str × Node))
  | socket

/-- The entry of a directory with the given name. -/
def lookupEntry (name : Str) : List (Str × Node) → Option Node
  | [] => none
  | (k, n) :: es => if k = name then some n else lookupEntry name es

/-- Replaces the entry with the given name, or adds it. -/
def setEntry (name : Str) (n : Node) : List (Str × Node) → List (Str × Node)
  | [] => [(name, n)]
  | (k, m) :: es => if k = name then (k, n) :: es else (k, m) :: setEntry name n es

/-- Drops the entry with the given name. -/
def delEntry (name : Str) : List (Str × Node) → List (Str × Node)
  | [] => []
  | (k, m) :: es => if k = name then delEntry name es else (k, m) :: delEntry name es

/-- Follows a location down the tree. -/
def walk : List Str → Node → Except Errno Node
  | [], n => .ok n
  | _ :: _, .file _ => .error .ENOTDIR
  | _ :: _, .socket => .error .ENOTDIR
  | c :: cs, .dir es =>
    match lookupEntry c es with
    | none => .error .ENOENT
    | some ch => walk cs ch

/-- Puts an object at a location whose parent directory exists. -/
def placeAt : List Str → Node → Node → Except Errno Node
  | [], x, _ => .ok x
  | _ :: _, _, .file _ => .error .ENOTDIR
  | _ :: _, _, .socket => .error .ENOTDIR
  | c :: cs, x, .dir es =>
    match lookupEntry c es with
    | some ch =>
      match placeAt cs x ch with
      | .ok ch' => .ok (.dir (setEntry c ch' es))
      | .error e => .error e
    | none =>
      match cs with
      | [] => .ok (.dir (setEntry c x es))
      | _ :: _ => .error .ENOENT

/-- A chain of new directories, one inside the other. -/
def freshDirs : List Str → Node
  | [] => .dir []
  | c :: cs => .dir [(c, freshDirs cs)]

/-- Makes the directory at a location with every missing parent. -/
def mkdirAllAt : List Str → Node → Except Errno Node
  | _, .file _ => .error .ENOTDIR
  | _, .socket => .error .ENOTDIR
  | [], .dir es => .ok (.dir es)
  | c :: cs, .dir es =>
    match lookupEntry c es with
    | some ch =>
      match mkdirAllAt cs ch with
      | .ok ch' => .ok (.dir (setEntry c ch' es))
      | .error e => .error e
    | none => .ok (.dir (setEntry c (freshDirs cs) es))

/-- Unlinks the object at a location with everything beneath it; a location
that does not exist is left alone. -/
def removeAt : List Str → Node → Except Errno Node
  | [], n => .ok n
  | _ :: _, .file _ => .error .ENOTDIR
  | _ :: _, .socket => .error .ENOTDIR
  | c :: cs, .dir es =>
    match cs with
    | [] => .ok (.dir (delEntry c es))
    | _ :: _ =>
      match lookupEntry c es with
      | none => .ok (.dir es)
      | some ch =>
        match removeAt cs ch with
        | .ok ch' => .ok (.dir (setEntry c ch' es))
        | .error e => .error e

/-- The location of a path given to a system call; the empty path names
nothing. -/
def resolve (path : Str) : Except Errno (List Str) :=
  if path = [] then .error .ENOENT else .ok (locate path)

/-- What `os.Stat` reports about a file. -/
structure FileInfo where
  IsDir : Bool
  IsRegular : Bool
  deriving DecidableEq, Repr

/-- The description of an object. -/
def Node.info : Node → FileInfo
  | .file _ => { IsDir := false, IsRegular := true }
  | .dir _ => { IsDir := true, IsRegular := false }
  | .socket => { IsDir := false, IsRegular := false }

/-- Go `os.Stat`. -/
def os_Stat (fs : Node) (path : Str) : Except Errno FileInfo :=
  match resolve path with
  | .error e => .error e
  | .ok loc =>
    match walk loc fs with
    | .error e => .error e
    | .ok n => .ok n.info

/-- Go `os.ReadFile`. -/
def os_ReadFile (fs : Node) (path : Str) : Except Errno Str :=
  match resolve path with
  | .error e => .error e
  | .ok loc =>
    match walk loc fs with
    | .error e => .error e
    | .ok (.dir _) => .error .EISDIR
    | .ok .socket => .error Errno.ENXIO
    | .ok (.file data) => .ok data

/-- Go `os.WriteFile`: creates the file or replaces its contents. -/
def os_WriteFile (fs : Node) (path : Str) (data : Str) : Except Errno Node :=
  match resolve path with
  | .error e => .error e
  | .ok loc =>
    match walk loc fs with
    | .ok (.dir _) => .error .EISDIR
    | .ok .socket => .error Errno.ENXIO
    | _ => placeAt loc (.file data) fs

/-- Go `os.MkdirAll`: nothing changes when the directory exists. -/
def os_MkdirAll (fs : Node) (path : Str) : Except Errno Node :=
  match resolve path with
  | .error e => .error e
  | .ok loc => mkdirAllAt loc fs

/-- Go `os.Rename`, after rename(2): a directory replaces an empty directory,
and a file or a socket replaces a file or a socket. -/
def os_Rename (fs : Node) (oldpath newpath : Str) : Except Errno Node :=
  match resolve oldpath, resolve newpath with
  | .error e, _ => .error e
  | _, .error e => .error e
  | .ok o, .ok n =>
    match walk o fs with
    | .error e => .error e
    | .ok src =>
      if o = n then .ok fs
      else if o <+: n then .error .EINVAL
      else
        match src, walk n fs with
        | .file _, .ok (.dir _) => .error .EISDIR
        | .socket, .ok (.dir _) => .error .EISDIR
        | .dir _, .ok (.file _) => .error .ENOTDIR
        | .dir _, .ok .socket => .error .ENOTDIR
        | .dir _, .ok (.dir (_ :: _)) => .error .ENOTEMPTY
        | _, _ =>
          match removeAt o fs with
          | .error e => .error e
          | .ok fs1 => placeAt n src fs1

/-- A directory without its entries. -/
def Node.emptied : Node → Node
  | .file data => .file data
  | .dir _ => .dir []
  | .socket => .socket

/-- Go `os.RemoveAll`: the new file system and the error, if any.  The empty
path and a path that does not exist are no error; a path ending in `.` is
refused with EINVAL before anything is removed ("the rmdir system call does
not permit removing `.`, so we don't permit it either"); the directories `/`
and `..` lose their contents and cannot be unlinked themselves. -/
def os_RemoveAll (fs : Node) (path : Str) : Node × Option Errno :=
  if path = [] then (fs, none)
  else if endsWithDot path then (fs, some .EINVAL)
  else
    match walk (locate path) fs with
    | .error .ENOENT => (fs, none)
    | .error e => (fs, some e)
    | .ok n =>
      if (locate path).getLast? = some ['/'] then
        match placeAt (locate path) n.emptied fs with
        | .ok fs' => (fs', some .EBUSY)
        | .error e => (fs, some e)
      else if (locate path).getLast? = some ['.', '.'] then
        match placeAt (locate path) n.emptied fs with
        | .ok fs' => (fs', some .ENOTEMPTY)
        | .error e => (fs, some e)
      else
        match removeAt (locate path) fs with
        | .ok fs' => (fs', none)
        | .error e => (fs, some e)

/-- Lexicographic order of file names. -/
def nameLe : Str → Str → Bool
  | [], _ => true
  | _ :: _, [] => false
  | a :: as, b :: bs => a.val < b.val || (a.val = b.val && nameLe as bs)

/-- Inserts a name into a sorted list of names. -/
def insertName (x : Str) : List Str → List Str
  | [] => [x]
  | y :: ys => if nameLe x y then x :: y :: ys else y :: insertName x ys

/-- Go `os.ReadDir`: the names of the entries of a directory, sorted. -/
def os_ReadDir (fs : Node) (path : Str) : Except Errno (List Str) :=
  match resolve path with
  | .error e => .error e
  | .ok loc =>
    match walk loc fs with
    | .error e => .error e
    | .ok (.file _) => .error .ENOTDIR
    | .ok .socket => .error .ENOTDIR
    | .ok (.dir es) => .ok ((es.map Prod.fst).foldr insertName [])

/-! ## The driver -/

/-- The JSON codec: `json.MarshalIndent(v, "", "\t")` and `json.Unmarshal`,
each failing with `none`. -/
structure Codec (α : Type) where
  MarshalIndent : α → Option Str
  Unmarshal : Str → Option α

/-- The errors the driver returns: a message made by `fmt.Errorf`, the error
of a system call, or an error of the JSON codec. -/
inductive Error where
  | errorf (text : Str)
  | sys (e : Errno)
  | json
  deriving DecidableEq, Repr

/-- The store: the names that have a mutex in the registry `mutexes`, oldest
first, and the root directory `dir`.  The guard mutex and the logger carry no
state of their own. -/
structure Driver where
  mutexes : List Str
  dir : Str
  deriving DecidableEq, Repr

/-- The outcome of an operation that may change the store. -/
structure Outcome where
  driver : Driver
  fs : Node
  err : Option Error

/-- The suffix of a resource file. -/
def jsonExt : Str := ['.', 'j', 's', 'o', 'n']

/-- The suffix of a temporary file. -/
def tmpExt : Str := ['.', 't', 'm', 'p']

/-- The outcome of `New`: the driver, the file system, the error and the
message given to `Logger.Debug`. -/
structure Started where
  driver : Driver
  fs : Node
  err : Option Error
  debug : Str

/-- Go `New`: the driver for the cleaned root path.  When `os.Stat` fails
the message says that the database already exists and nothing is done; when
it succeeds the message says that the database is created and `os.MkdirAll`
is called on the root. -/
def New (fs : Node) (dir : Str) : Started :=
  let dir := Clean dir
  let driver : Driver := { mutexes := [], dir := dir }
  match os_Stat fs dir with
  | .error _ =>
    { driver := driver, fs := fs, err := none,
      debug := "Using '".toList ++ dir ++ "' (database already exists)\n".toList }
  | .ok _ =>
    match os_MkdirAll fs dir with
    | .ok fs' =>
      { driver := driver, fs := fs', err := none,
        debug := "Creating the database at '".toList ++ dir ++ "'...\n".toList }
    | .error e =>
      { driver := driver, fs := fs, err := some (.sys e),
        debug := "Creating the database at '".toList ++ dir ++ "'...\n".toList }

/-- Go `GetOrCreateMutex`: the registry gains the name on first use. -/
def Driver.GetOrCreateMutex (d : Driver) (collection : Str) : Driver :=
  if collection ∈ d.mutexes then d
  else { d with mutexes := d.mutexes ++ [collection] }

/-- Go `Stat`: the path itself, or the path with `.json` when the path does
not exist. -/
def Stat (fs : Node) (path : Str) : Except Errno FileInfo :=
  match os_Stat fs path with
  | .error .ENOENT => os_Stat fs (path ++ jsonExt)
  | r => r

/-- Go `Write`. -/
def Driver.Write {α : Type} (codec : Codec α) (d : Driver) (fs : Node)
    (collection resource : Str) (v : α) : Outcome :=
  if collection = [] then
    { driver := d, fs := fs,
      err := some (.errorf ("Missing collection - no place to save record!".toList)) }
  else if resource = [] then
    { driver := d, fs := fs,
      err := some (.errorf ("Missing resouce - unable to save record(no name)".toList)) }
  else
    let d := d.GetOrCreateMutex collection
    let dir := Join [d.dir, collection]
    let fnlPath := Join [dir, resource ++ jsonExt]
    let tmpPath := fnlPath ++ tmpExt
    match os_MkdirAll fs dir with
    | .error e => { driver := d, fs := fs, err := some (.sys e) }
    | .ok fs1 =>
      match codec.MarshalIndent v with
      | none => { driver := d, fs := fs1, err := some .json }
      | some b =>
        match os_WriteFile fs1 tmpPath (b ++ ['\n']) with
        | .error e => { driver := d, fs := fs1, err := some (.sys e) }
        | .ok fs2 =>
          match os_Rename fs2 tmpPath fnlPath with
          | .error e => { driver := d, fs := fs2, err := some (.sys e) }
          | .ok fs3 => { driver := d, fs := fs3, err := none }

/-- Go `Read`: the decoded value, or the error. -/
def Driver.Read {α : Type} (codec : Codec α) (d : Driver) (fs : Node)
    (collection resource : Str) : Except Error α :=
  if collection = [] then
    .error (.errorf ("missing collection - no place to read record".toList))
  else if resource = [] then
    .error (.errorf ("missing resource - unable to save records".toList))
  else
    let record := Join [d.dir, collection, resource]
    match Stat fs record with
    | .error e => .error (.sys e)
    | .ok _ =>
      match os_ReadFile fs (record ++ jsonExt) with
      | .error e => .error (.sys e)
      | .ok b =>
        match codec.Unmarshal b with
        | none => .error .json
        | some v => .ok v

/-- The loop of `ReadAll` over the directory entries: the contents read so
far are in `records`. -/
def readRecords (fs : Node) (dir : Str) : List Str → List Str → Except Error (List Str)
  | [], records => .ok records
  | name :: files, records =>
    match os_ReadFile fs (Join [dir, name]) with
    | .error e => .error (.sys e)
    | .ok b => readRecords fs dir files (records ++ [b])

/-- Go `ReadAll`: the error of `os.ReadDir` is dropped and the listing is
then empty. -/
def Driver.ReadAll (d : Driver) (fs : Node) (collection : Str) : Except Error (List Str) :=
  if collection = [] then
    .error (.errorf ("missing collection - unable to read".toList))
  else
    let dir := Join [d.dir, collection]
    match Stat fs dir with
    | .error e => .error (.sys e)
    | .ok _ =>
      let files := match os_ReadDir fs dir with
        | .ok names => names
        | .error _ => []
      readRecords fs dir files []

/-- Go `Delete`. -/
def Driver.Delete (d : Driver) (fs : Node) (collection resource : Str) : Outcome :=
  let path := Join [collection, resource]
  let d := d.GetOrCreateMutex collection
  let dir := Join [d.dir, path]
  match Stat fs dir with
  | .error _ =>
    { driver := d, fs := fs,
      err := some (.errorf ("unable to find file or directory named ".toList ++ path ++ ['\n'])) }
  | .ok fi =>
    if fi.IsDir then
      let r := os_RemoveAll fs dir
      { driver := d, fs := r.1, err := r.2.map Error.sys }
    else if fi.IsRegular then
      let r := os_RemoveAll fs (dir ++ jsonExt)
      { driver := d, fs := r.1, err := r.2.map Error.sys }
    else { driver := d, fs := fs, err := none }

/-! ## Notions used in the statements -/

/-- A plain name: non-empty, without separator, and neither `.` nor `..`. -/
def PlainName (s : Str) : Prop := s ≠ [] ∧ '/' ∉ s ∧ s ≠ ['.'] ∧ s ≠ ['.', '.']

instance (s : Str) : Decidable (PlainName s) := by unfold PlainName; infer_instance

/-- The kept elements of a cleaned path, last first: no empty element, no
`.`, no separator, and `..` only at the bottom of an unrooted path. -/
def StackOk (rooted : Bool) : List Str → Prop
  | [] => True
  | top :: rest =>
    '/' ∉ top ∧ top ≠ [] ∧ top ≠ ['.'] ∧
    (top = ['.', '.'] → rooted = false ∧ (rest = [] ∨ rest.head? = some ['.', '.'])) ∧
    StackOk rooted rest

/-- The string of a cleaned path with the given elements. -/
def render (rooted : Bool) (elems : List Str) : Str :=
  if rooted then '/' :: joinSep elems
  else if elems = [] then ['.']
  else joinSep elems

/-- The path of a collection before it is cleaned: `filepath.Join` skips an
empty root. -/
def collectionPath (root c : Str) : Str :=
  if root = [] then c else root ++ '/' :: c

/-- Sample values of the caller: a boolean, or a channel, which
`json.MarshalIndent` refuses to encode. -/
inductive Sample where
  | bool (b : Bool)
  | chan
  deriving DecidableEq, Repr

/-- The JSON codec on the sample values. -/
def sampleCodec : Codec Sample where
  MarshalIndent := fun v =>
    match v with
    | .bool true => some ['t', 'r', 'u', 'e']
    | .bool false => some ['f', 'a', 'l', 's', 'e']
    | .chan => none
  Unmarshal := fun b =>
    if b = ['t', 'r', 'u', 'e', '\n'] then some (.bool true)
    else if b = ['f', 'a', 'l', 's', 'e', '\n'] then some (.bool false)
    else none

/-- A driver rooted at `db`, with an empty registry. -/
def sampleDriver : Driver := { mutexes := [], dir := ['d', 'b'] }

/-- The collection name `users`. -/
def users : Str := ['u', 's', 'e', 'r', 's']

/-- The resource name `bruce`. -/
def bruce : Str := ['b', 'r', 'u', 'c', 'e']

/-- Whether the path names a directory. -/
def isDirectory (fs : Node) (path : Str) : Bool :=
  match os_Stat fs path with
  | .ok fi => fi.IsDir
  | .error _ => false

/-- Whether the path names a regular file. -/
def isRegularFile (fs : Node) (path : Str) : Bool :=
  match os_Stat fs path with
  | .ok fi => fi.IsRegular
  | .error _ => false

/-- Whether `os.Stat` finds an object at the path or reports that none
exists: the path is not refused for another reason, such as the length of a
name. -/
def presentOrMissing (fs : Node) (path : Str) : Bool :=
  match os_Stat fs path with
  | .ok _ => true
  | .error e => decide (e = .ENOENT)

/-- Whether the cleaned path ends in a name, so that the directory can be
unlinked: the path is not `.` or `/` and does not end in `..`. -/
def endsInName (p : Str) : Bool :=
  match (cleanElems p).getLast? with
  | some x => decide (x ≠ ['.', '.'])
  | none => false

/-- The root name `db`. -/
def db : Str := ['d', 'b']

/-- The contents `true` with the final newline. -/
def trueLine : Str := ['t', 'r', 'u', 'e', '\n']

/-- A store under `db` with the resource `bruce` in the collection `users`. -/
def storeBruce : Node :=
  .dir [(db, .dir [(users, .dir [(bruce ++ jsonExt, .file trueLine)])])]

/-- A store in which the collection `users` holds the resource `bruce` and a
directory of the same name. -/
def storeBruceDir : Node :=
  .dir [(db, .dir [(users, .dir [(bruce, .dir []), (bruce ++ jsonExt, .file trueLine)])])]

/-- A store in which the collection `users` holds the resource `bruce` and a
socket of the same name. -/
def storeBruceSocket : Node :=
  .dir [(db, .dir [(users, .dir [(bruce, .socket), (bruce ++ jsonExt, .file trueLine)])])]

/-- A store in which the collection `users` holds the files `bruce.json` and
`bruce.json.json`. -/
def storeBruceTwice : Node :=
  .dir [(db, .dir [(users, .dir [(bruce ++ jsonExt, .file trueLine),
    (bruce ++ jsonExt ++ jsonExt, .file trueLine)])])]

/-- A store with the file `bruce.json` in the working directory and in `db`. -/
def storeOutside : Node :=
  .dir [(bruce ++ jsonExt, .file trueLine), (db, .dir [(bruce ++ jsonExt, .file trueLine)])]

/-- A store with the empty collection `users` and the file `db/users.json`. -/
def storeUsersFile : Node :=
  .dir [(db, .dir [(users, .dir []), (users ++ jsonExt, .file trueLine)])]

/-- A file system in which `db` is a regular file. -/
def storeRootFile : Node :=
  .dir [(db, .file trueLine)]

/-- A store in which `db/users/bruce` is a directory and `bruce.json` does not
exist. -/
def storeBruceFolder : Node :=
  .dir [(db, .dir [(users, .dir [(bruce, .dir [])])])]

/-- A store in which `db/users/bruce.json` is a directory. -/
def storeJsonDir : Node :=
  .dir [(db, .dir [(users, .dir [(bruce ++ jsonExt, .dir [])])])]

/-- The collection name `/..`, which begins with the separator. -/
def rootedName : Str := ['/', '.', '.']

/-- A store with the collections `users` and `users.json`. -/
def storeTwoCollections : Node :=
  .dir [(db, .dir [(users, .dir [(bruce ++ jsonExt, .file trueLine)]),
    (users ++ jsonExt, .dir [])])]

/-- A store with the collection `users.json` and no collection `users`. -/
def storeJsonCollection : Node :=
  .dir [(db, .dir [(users ++ jsonExt, .dir [])])]

/-- A driver rooted at the working directory, as in `main`. -/
def dotDriver : Driver := { mutexes := [], dir := ['.'] }

/-- The working directory with the collection `users`. -/
def storeAtDot : Node :=
  .dir [(users, .dir [(bruce ++ jsonExt, .file trueLine)])]

/-- The description of the object at a location. -/
def statAt (loc : List Str) (fs : Node) : Except Errno FileInfo :=
  match walk loc fs with
  | .error e => .error e
  | .ok n => .ok n.info

/-- What `os.Stat` reports about a directory. -/
def dirInfo : FileInfo := { IsDir := true, IsRegular := false }

/-- A call that may change the store. -/
inductive Call (α : Type) where
  | write (collection resource : Str) (v : α)
  | delete (collection resource : Str)

/-- The driver and the file system after a call, whatever it returns. -/
def Call.run {α : Type} (codec : Codec α) (s : Driver × Node) : Call α → Driver × Node
  | .write c r v => ((s.1.Write codec s.2 c r v).driver, (s.1.Write codec s.2 c r v).fs)
  | .delete c r => ((s.1.Delete s.2 c r).driver, (s.1.Delete s.2 c r).fs)

/-- The driver and the file system after a sequence of calls. -/
def runCalls {α : Type} (codec : Codec α) (s : Driver × Node) (calls : List (Call α)) :
    Driver × Node :=
  calls.foldl (Call.run codec) s

/-- A call with a plain collection name and a resource name that is plain or
empty. -/
def Call.Plain {α : Type} : Call α → Prop
  | .write c r _ => PlainName c ∧ (r = [] ∨ PlainName r)
  | .delete c r => PlainName c ∧ (r = [] ∨ PlainName r)

instance {α : Type} (call : Call α) : Decidable call.Plain := by
  cases call <;> unfold Call.Plain <;> infer_instance

/-- Whether `os.MkdirAll` of the directory of collection `c` succeeds in the
store `s`, as `Write` calls it. -/
def mkdirSucceeds (s : Driver × Node) (c : Str) : Bool :=
  match os_MkdirAll s.2 (Join [s.1.dir, c]) with
  | .ok _ => true
  | .error _ => false

/-- Whether the directory of collection `c` is due after a call made in the
store `s`, given whether it was due before: a `Write` to `c` that passes the
validation of the names and whose `os.MkdirAll` succeeds makes it due,
whatever `Write` returns in the end; a `Delete` of `c` with an empty resource
ends it. -/
def dueStep {α : Type} (c : Str) (s : Driver × Node) (due : Bool) : Call α → Bool
  | .write c' r _ => if c' = c ∧ r ≠ [] ∧ mkdirSucceeds s c' = true then true else due
  | .delete c' r => if c' = c ∧ r = [] then false else due

/-- Whether the directory of collection `c` is due after a sequence of calls
made from the store `s`, given whether it was due in `s`. -/
def dirDue {α : Type} (codec : Codec α) (c : Str) :
    Driver × Node → Bool → List (Call α) → Bool
  | _, due, [] => due
  | s, due, call :: rest =>
    dirDue codec c (Call.run codec s call) (dueStep c s due call) rest

/-- Whether what `Stat` finds for the path, at the path itself or at the path
with `.json`, is a regular file. -/
def foundRegular (fs : Node) (path : Str) : Bool :=
  match Stat fs path with
  | .ok fi => fi.IsRegular
  | .error _ => false

/-- Whether `os.Stat` finds nothing at the path. -/
def nothingAt (fs : Node) (path : Str) : Bool :=
  match os_Stat fs path with
  | .ok _ => false
  | .error _ => true

/-- The directory of every plain collection name under the root location
exists exactly when it is due, and nothing else has its name. -/
def DirsAsDue (root : List Str) (fs : Node) (due : Str → Bool) : Prop :=
  ∀ c, PlainName c →
    (due c = true ∧ statAt (root ++ [c]) fs = .ok dirInfo) ∨
    (due c = false ∧ ∃ e, statAt (root ++ [c]) fs = .error e)

/-- The outcome of `Write` of the resource `bruce` of the collection `users`
on the store that `New` makes for the root `db` on the empty file system. -/
def writtenBruce : Outcome :=
  (New (.dir []) db).driver.Write sampleCodec (New (.dir []) db).fs users bruce (.bool true)

/-- A sequence of calls on the collection `users`: a `Write` that fails in
the codec, a `Delete` of a resource, and a `Write` with an empty resource. -/
def sampleCalls : List (Call Sample) :=
  [.write users bruce .chan, .delete users bruce, .write users [] (.bool true)]

/-! ## Lemmas on paths -/

theorem splitSep_ne_nil (s : Str) : splitSep s ≠ [] := by
  cases s with
  | nil => simp [splitSep]
  | cons ch rest =>
    simp only [splitSep]
    split
    · simp
    · cases h : splitSep rest <;> simp [consHead]

theorem splitSep_cons (ch : Char) (rest : Str) :
    splitSep (ch :: rest) = if ch = '/' then [] :: splitSep rest else consHead ch (splitSep rest) :=
  rfl

theorem splitSep_append_sep (a b : Str) :
    splitSep (a ++ '/' :: b) = splitSep a ++ splitSep b := by
  induction a with
  | nil => simp [splitSep]
  | cons ch rest ih =>
    rw [List.cons_append, splitSep_cons, splitSep_cons, ih]
    split
    · simp
    · cases h : splitSep rest with
      | nil => exact absurd h (splitSep_ne_nil rest)
      | cons w ws => simp [consHead]

theorem splitSep_noSep (s : Str) (h : '/' ∉ s) : splitSep s = [s] := by
  induction s with
  | nil => simp [splitSep]
  | cons ch rest ih =>
    simp only [List.mem_cons, not_or] at h
    have hne : ¬ ch = '/' := fun e => h.1 e.symm
    simp [splitSep, hne, ih h.2, consHead]

theorem mem_splitSep_noSep (s e : Str) (h : e ∈ splitSep s) : '/' ∉ e := by
  induction s generalizing e with
  | nil => simp [splitSep] at h; simp [h]
  | cons ch rest ih =>
    simp only [splitSep] at h
    split at h
    · simp only [List.mem_cons] at h
      rcases h with h | h
      · simp [h]
      · exact ih e h
    · cases hr : splitSep rest with
      | nil => exact absurd hr (splitSep_ne_nil rest)
      | cons w ws =>
        rw [hr] at h ih
        simp only [consHead, List.mem_cons] at h
        rcases h with h | h
        · subst h
          have hw := ih w (by simp)
          simp only [List.mem_cons, not_or]
          exact ⟨fun e => by rename_i hne; exact hne e.symm, hw⟩
        · exact ih e (by simp [h])
theorem stackOk_tail {r : Bool} {top : Str} {rest : List Str} (h : StackOk r (top :: rest)) :
    StackOk r rest := h.2.2.2.2

theorem stackOk_mem {r : Bool} {st : List Str} (h : StackOk r st) {e : Str} (he : e ∈ st) :
    '/' ∉ e ∧ e ≠ [] ∧ e ≠ ['.'] := by
  induction st with
  | nil => simp at he
  | cons top rest ih =>
    simp only [List.mem_cons] at he
    rcases he with he | he
    · subst he; exact ⟨h.1, h.2.1, h.2.2.1⟩
    · exact ih (stackOk_tail h) he

theorem stackOk_cleanStep {r : Bool} {st : List Str} (h : StackOk r st) {e : Str}
    (he : '/' ∉ e) : StackOk r (cleanStep r st e) := by
  unfold cleanStep
  split
  · exact h
  · rename_i h1
    simp only [not_or] at h1
    split
    · rename_i h2
      cases st with
      | nil =>
        cases r with
        | true => simp [StackOk]
        | false => simp [StackOk, h2]
      | cons top rest =>
        simp only
        split
        · rename_i h3
          subst h2
          refine ⟨he, h1.1, h1.2, ?_, h⟩
          intro _
          refine ⟨?_, Or.inr (by simp [h3])⟩
          exact (h.2.2.2.1 h3).1
        · exact stackOk_tail h
    · rename_i h2
      exact ⟨he, h1.1, h1.2, fun e' => absurd e' h2, h⟩

theorem stackOk_foldl {r : Bool} (es : List Str) {st : List Str} (h : StackOk r st)
    (hes : ∀ e ∈ es, '/' ∉ e) : StackOk r (es.foldl (cleanStep r) st) := by
  induction es generalizing st with
  | nil => exact h
  | cons e es ih =>
    simp only [List.foldl_cons]
    exact ih (stackOk_cleanStep h (hes e (by simp))) (fun e' he' => hes e' (by simp [he']))

theorem stackOk_cleanElems (p : Str) : StackOk (isRooted p) (cleanElems p).reverse := by
  unfold cleanElems
  rw [List.reverse_reverse]
  exact stackOk_foldl _ (by simp [StackOk]) (fun e he => mem_splitSep_noSep p e he)

theorem cleanStep_keep {r : Bool} {st : List Str} {top : Str} (h : StackOk r (top :: st)) :
    cleanStep r st top = top :: st := by
  obtain ⟨_, h2, h3, h4, _⟩ := h
  unfold cleanStep
  rw [if_neg (by simp [h2, h3])]
  split
  · rename_i hd
    obtain ⟨hr, hrest⟩ := h4 hd
    rcases hrest with hrest | hrest
    · subst hrest; simp [hr, hd]
    · cases st with
      | nil => simp at hrest
      | cons t rest =>
        simp only [List.head?_cons, Option.some.injEq] at hrest
        simp [hrest, hd]
  · rfl

theorem foldl_cleanStep_stable {r : Bool} (st : List Str) (h : StackOk r st) :
    st.reverse.foldl (cleanStep r) [] = st := by
  induction st with
  | nil => rfl
  | cons top rest ih =>
    rw [List.reverse_cons, List.foldl_append, ih (stackOk_tail h)]
    simp only [List.foldl_cons, List.foldl_nil]
    exact cleanStep_keep h

theorem cleanStep_nil (r : Bool) (st : List Str) : cleanStep r st [] = st := by
  simp [cleanStep]

theorem cleanStep_plain (r : Bool) (st : List Str) {x : Str} (h : PlainName x) :
    cleanStep r st x = x :: st := by
  obtain ⟨h1, _, h3, h4⟩ := h
  simp [cleanStep, h1, h3, h4]

theorem splitSep_joinSep (E : List Str) (hne : E ≠ []) (h : ∀ e ∈ E, '/' ∉ e) :
    splitSep (joinSep E) = E := by
  induction E with
  | nil => exact absurd rfl hne
  | cons e es ih =>
    cases es with
    | nil => simpa [joinSep] using splitSep_noSep e (h e (by simp))
    | cons e' es' =>
      simp only [joinSep]
      rw [splitSep_append_sep, splitSep_noSep e (h e (by simp)),
        ih (by simp) (fun x hx => h x (by simp [hx]))]
      rfl

theorem joinSep_append_ext (E : List Str) (x ext : Str) :
    joinSep (E ++ [x]) ++ ext = joinSep (E ++ [x ++ ext]) := by
  induction E with
  | nil => simp [joinSep]
  | cons e es ih =>
    cases es with
    | nil => simp [joinSep]
    | cons e' es' =>
      have ih' : joinSep (e' :: (es' ++ [x])) ++ ext = joinSep (e' :: (es' ++ [x ++ ext])) := ih
      show (e ++ '/' :: joinSep (e' :: (es' ++ [x]))) ++ ext
        = e ++ '/' :: joinSep (e' :: (es' ++ [x ++ ext]))
      rw [List.append_assoc, List.cons_append, ih']

theorem render_append_ext (r : Bool) (E : List Str) (x ext : Str) :
    render r (E ++ [x]) ++ ext = render r (E ++ [x ++ ext]) := by
  unfold render
  cases r with
  | true => simp [joinSep_append_ext]
  | false => simp [joinSep_append_ext]

theorem isRooted_joinSep {e : Str} {es : List Str} (h1 : '/' ∉ e) (h2 : e ≠ []) :
    isRooted (joinSep (e :: es)) = false := by
  cases e with
  | nil => exact absurd rfl h2
  | cons ch rest =>
    simp only [List.mem_cons, not_or] at h1
    have : ¬ ch = '/' := fun e => h1.1 e.symm
    cases es <;> simp [joinSep, isRooted, this]

theorem isRooted_render {r : Bool} {E : List Str} (h : StackOk r E.reverse) :
    isRooted (render r E) = r := by
  unfold render
  cases r with
  | true => simp [isRooted]
  | false =>
    cases E with
    | nil => simp [isRooted]
    | cons e es =>
      have := stackOk_mem h (e := e) (by simp)
      simpa using isRooted_joinSep this.1 this.2.1

theorem cleanElems_render {r : Bool} {E : List Str} (h : StackOk r E.reverse) :
    cleanElems (render r E) = E := by
  have hnosep : ∀ e ∈ E, '/' ∉ e := fun e he => (stackOk_mem h (by simpa using he)).1
  have hfold := foldl_cleanStep_stable _ h
  rw [List.reverse_reverse] at hfold
  unfold cleanElems
  rw [isRooted_render h]
  cases E with
  | nil =>
    cases r with
    | true => simp [render, joinSep, splitSep, cleanStep]
    | false => simp [render, splitSep, consHead, cleanStep]
  | cons e es =>
    have hsplit := splitSep_joinSep (e :: es) (by simp) hnosep
    cases r with
    | true =>
      simp only [render, if_true, splitSep_cons, hsplit] at hfold ⊢
      rw [List.foldl_cons, cleanStep_nil, hfold, List.reverse_reverse]
    | false =>
      simp only [render] at hfold ⊢
      simp only [Bool.false_eq_true, if_false, reduceCtorEq, hsplit]
      rw [hfold, List.reverse_reverse]

theorem Clean_eq_render (p : Str) : Clean p = render (isRooted p) (cleanElems p) := rfl

theorem Clean_ne_nil (p : Str) : Clean p ≠ [] := by
  unfold Clean
  split
  · simp
  · split
    · simp
    · rename_i h1 h2
      cases hE : cleanElems p with
      | nil => exact absurd hE h2
      | cons e es =>
        have hm := stackOk_mem (stackOk_cleanElems p) (e := e) (by simp [hE])
        cases e with
        | nil => exact absurd rfl hm.2.1
        | cons ch rest => cases es <;> simp [joinSep]

theorem isRooted_Clean (p : Str) : isRooted (Clean p) = isRooted p :=
  isRooted_render (stackOk_cleanElems p)

theorem cleanElems_Clean (p : Str) : cleanElems (Clean p) = cleanElems p :=
  cleanElems_render (stackOk_cleanElems p)

theorem locate_Clean (p : Str) : locate (Clean p) = locate p := by
  unfold locate
  rw [isRooted_Clean, cleanElems_Clean]

theorem isRooted_append {p : Str} (h : p ≠ []) (s : Str) : isRooted (p ++ s) = isRooted p := by
  cases p with
  | nil => exact absurd rfl h
  | cons ch rest => rfl

theorem cleanElems_append_sep {p : Str} (h : p ≠ []) (s : Str) :
    cleanElems (p ++ '/' :: s) =
      ((splitSep s).foldl (cleanStep (isRooted p)) (cleanElems p).reverse).reverse := by
  unfold cleanElems
  rw [isRooted_append h, splitSep_append_sep, List.foldl_append, List.reverse_reverse]

theorem cleanElems_Clean_append_sep {p : Str} (h : p ≠ []) (s : Str) :
    cleanElems (Clean p ++ '/' :: s) = cleanElems (p ++ '/' :: s) := by
  rw [cleanElems_append_sep (Clean_ne_nil p), cleanElems_append_sep h, isRooted_Clean,
    cleanElems_Clean]

theorem Clean_Clean_append_sep {p : Str} (h : p ≠ []) (s : Str) :
    Clean (Clean p ++ '/' :: s) = Clean (p ++ '/' :: s) := by
  rw [Clean_eq_render (Clean p ++ '/' :: s), Clean_eq_render (p ++ '/' :: s),
    cleanElems_Clean_append_sep h, isRooted_append (Clean_ne_nil p), isRooted_append h,
    isRooted_Clean]

theorem cleanElems_append_plain {p : Str} (h : p ≠ []) {x : Str} (hx : PlainName x) :
    cleanElems (p ++ '/' :: x) = cleanElems p ++ [x] := by
  rw [cleanElems_append_sep h, splitSep_noSep x hx.2.1]
  simp [cleanStep_plain _ _ hx]

theorem locate_append_plain {p : Str} (h : p ≠ []) {x : Str} (hx : PlainName x) :
    locate (p ++ '/' :: x) = locate p ++ [x] := by
  unfold locate
  rw [isRooted_append h, cleanElems_append_plain h hx, List.append_assoc]

theorem cleanElems_plain {x : Str} (hx : PlainName x) : cleanElems x = [x] := by
  unfold cleanElems
  rw [splitSep_noSep x hx.2.1]
  simp [cleanStep_plain _ _ hx]

theorem isRooted_plain {x : Str} (hx : PlainName x) : isRooted x = false := by
  obtain ⟨h1, h2, _, _⟩ := hx
  cases x with
  | nil => exact absurd rfl h1
  | cons ch rest =>
    simp only [List.mem_cons, not_or] at h2
    simpa [isRooted] using fun e => h2.1 (Eq.symm e)

theorem Clean_plain {x : Str} (hx : PlainName x) : Clean x = x := by
  rw [Clean_eq_render, cleanElems_plain hx, isRooted_plain hx]
  simp [render, joinSep]
theorem plainName_append {x : Str} (hx : PlainName x) {ext : Str} (h1 : '/' ∉ ext)
    (h2 : 2 ≤ ext.length) : PlainName (x ++ ext) := by
  obtain ⟨hne, hsep, _, _⟩ := hx
  have hlen : 1 ≤ x.length := by
    cases x with
    | nil => exact absurd rfl hne
    | cons _ _ => simp
  refine ⟨by simp [hne], by simp [hsep, h1], ?_, ?_⟩
  · intro h
    have := congrArg List.length h
    simp at this
    omega
  · intro h
    have := congrArg List.length h
    simp at this
    omega

theorem plainName_json {x : Str} (hx : PlainName x) : PlainName (x ++ jsonExt) :=
  plainName_append hx (by decide) (by decide)

theorem plainName_tmp {x : Str} (hx : PlainName x) : PlainName (x ++ tmpExt) :=
  plainName_append hx (by decide) (by decide)

theorem cleanElems_Clean_append_ext {p : Str} {E : List Str} {x ext : Str}
    (hp : cleanElems p = E ++ [x]) (hx : PlainName (x ++ ext)) :
    cleanElems (Clean p ++ ext) = E ++ [x ++ ext] ∧ isRooted (Clean p ++ ext) = isRooted p := by
  have hok := stackOk_cleanElems p
  rw [hp, List.reverse_append, List.reverse_singleton, List.singleton_append] at hok
  have hok' : StackOk (isRooted p) (E ++ [x ++ ext]).reverse := by
    rw [List.reverse_append, List.reverse_singleton, List.singleton_append]
    exact ⟨hx.2.1, hx.1, hx.2.2.1, fun h => absurd h hx.2.2.2, stackOk_tail hok⟩
  rw [Clean_eq_render, hp, render_append_ext]
  exact ⟨cleanElems_render hok', isRooted_render hok'⟩

theorem locate_Clean_append_ext {q : Str} (hq : q ≠ []) {x ext : Str} (hx : PlainName x)
    (hxe : PlainName (x ++ ext)) :
    locate (Clean (q ++ '/' :: x) ++ ext) = locate q ++ [x ++ ext] := by
  obtain ⟨h1, h2⟩ := cleanElems_Clean_append_ext (cleanElems_append_plain hq hx) hxe
  unfold locate
  rw [h1, h2, isRooted_append hq, List.append_assoc]

theorem locate_plain_append_ext {x ext : Str} (hx : PlainName x) (hxe : PlainName (x ++ ext)) :
    locate (Clean x ++ ext) = [x ++ ext] := by
  rw [Clean_plain hx]
  unfold locate
  rw [cleanElems_plain hxe, isRooted_plain hxe]
  rfl

theorem endsWithDot_of_reverse {p : Str} {a : Char} {t : Str} (h : p.reverse = a :: t)
    (ha : a ≠ '.' ∨ ∃ b t', t = b :: t' ∧ b ≠ '/') : endsWithDot p = false := by
  unfold endsWithDot
  rw [h]
  split
  · rename_i heq
    simp only [List.cons.injEq] at heq
    rcases ha with ha | ⟨b, t', ht, _⟩
    · exact absurd heq.1 ha
    · rw [ht] at heq
      simp at heq
  · rename_i heq
    simp only [List.cons.injEq] at heq
    rcases ha with ha | ⟨b, t', ht, hb⟩
    · exact absurd heq.1 ha
    · rw [ht] at heq
      simp only [List.cons.injEq] at heq
      exact absurd heq.2.1 hb
  · rfl

theorem endsWithDot_append_name (pre : Str) {x : Str} (h1 : x ≠ []) (h2 : x ≠ ['.'])
    (h3 : '/' ∉ x) : endsWithDot (pre ++ x) = false := by
  rcases List.eq_nil_or_concat x with h | ⟨init, a, h⟩
  · exact absurd h h1
  · subst h
    rcases List.eq_nil_or_concat init with h | ⟨init', b, h⟩
    · subst h
      have ha : a ≠ '.' := fun e => h2 (by simp [e])
      exact endsWithDot_of_reverse (a := a) (t := pre.reverse) (by simp) (Or.inl ha)
    · subst h
      have hb : b ≠ '/' := fun e => h3 (by simp [e])
      exact endsWithDot_of_reverse (a := a) (t := b :: (pre ++ init').reverse) (by simp)
        (Or.inr ⟨b, _, rfl, hb⟩)

theorem joinSep_concat (E : List Str) (x : Str) :
    ∃ pre, joinSep (E ++ [x]) = pre ++ x := by
  induction E with
  | nil => exact ⟨[], by simp [joinSep]⟩
  | cons e es ih =>
    obtain ⟨pre, hpre⟩ := ih
    cases es with
    | nil => exact ⟨e ++ ['/'], by simp [joinSep]⟩
    | cons e' es' =>
      refine ⟨e ++ '/' :: pre, ?_⟩
      show e ++ '/' :: joinSep (e' :: es' ++ [x]) = _
      rw [hpre]
      simp

theorem endsWithDot_Clean {p : Str} {E : List Str} {x : Str} (hp : cleanElems p = E ++ [x]) :
    endsWithDot (Clean p) = false := by
  have hm := stackOk_mem (stackOk_cleanElems p) (e := x) (by simp [hp])
  obtain ⟨pre, hpre⟩ := joinSep_concat E x
  rw [Clean_eq_render, hp]
  unfold render
  split
  · rw [hpre, ← List.cons_append]
    exact endsWithDot_append_name _ hm.2.1 hm.2.2 hm.1
  · rw [if_neg (by simp), hpre]
    exact endsWithDot_append_name _ hm.2.1 hm.2.2 hm.1

theorem endsWithDot_json (p : Str) : endsWithDot (p ++ jsonExt) = false := by
  unfold endsWithDot jsonExt
  simp

/-! ### Paths of the driver -/

theorem Join_pair {a : Str} (ha : a ≠ []) (b : Str) : Join [a, b] = Clean (a ++ '/' :: b) := by
  simp [Join, ha, joinSep]

theorem Join_nil_pair {b : Str} (hb : b ≠ []) : Join [[], b] = Clean b := by
  simp [Join, hb, joinSep]

theorem Join_triple {a : Str} (ha : a ≠ []) (b c : Str) :
    Join [a, b, c] = Clean (a ++ '/' :: (b ++ '/' :: c)) := by
  simp [Join, ha, joinSep]

theorem Join_nil_triple {b : Str} (hb : b ≠ []) (c : Str) :
    Join [[], b, c] = Clean (b ++ '/' :: c) := by
  simp [Join, hb, joinSep]
/-! ### Directory entries -/

theorem lookupEntry_setEntry_same (c : Str) (n : Node) (es : List (Str × Node)) :
    lookupEntry c (setEntry c n es) = some n := by
  induction es with
  | nil => simp [setEntry, lookupEntry]
  | cons e es ih =>
    obtain ⟨k, m⟩ := e
    by_cases h : k = c
    · simp [setEntry, lookupEntry, h]
    · simp [setEntry, lookupEntry, h, ih]

theorem lookupEntry_setEntry_ne {a c : Str} (h : a ≠ c) (n : Node) (es : List (Str × Node)) :
    lookupEntry a (setEntry c n es) = lookupEntry a es := by
  induction es with
  | nil => simp [setEntry, lookupEntry, Ne.symm h]
  | cons e es ih =>
    obtain ⟨k, m⟩ := e
    by_cases hk : k = c
    · subst hk
      simp [setEntry, lookupEntry, Ne.symm h]
    · by_cases hka : k = a
      · subst hka
        simp [setEntry, lookupEntry, h]
      · simp [setEntry, lookupEntry, hk, hka, ih]

theorem lookupEntry_delEntry_same (c : Str) (es : List (Str × Node)) :
    lookupEntry c (delEntry c es) = none := by
  induction es with
  | nil => simp [delEntry, lookupEntry]
  | cons e es ih =>
    obtain ⟨k, m⟩ := e
    by_cases h : k = c
    · simp [delEntry, h, ih]
    · simp [delEntry, lookupEntry, h, ih]

theorem lookupEntry_delEntry_ne {a c : Str} (h : a ≠ c) (es : List (Str × Node)) :
    lookupEntry a (delEntry c es) = lookupEntry a es := by
  induction es with
  | nil => simp [delEntry, lookupEntry]
  | cons e es ih =>
    obtain ⟨k, m⟩ := e
    by_cases hk : k = c
    · subst hk
      simp [delEntry, lookupEntry, Ne.symm h, ih]
    · by_cases hka : k = a
      · subst hka
        simp [delEntry, lookupEntry, h]
      · simp [delEntry, lookupEntry, hk, hka, ih]

theorem setEntry_lookupEntry {c : Str} {n : Node} {es : List (Str × Node)}
    (h : lookupEntry c es = some n) : setEntry c n es = es := by
  induction es with
  | nil => simp [lookupEntry] at h
  | cons e es ih =>
    obtain ⟨k, m⟩ := e
    by_cases hk : k = c
    · simp only [lookupEntry, hk, if_true, Option.some.injEq] at h
      simp [setEntry, hk, h]
    · simp only [lookupEntry, hk, if_false] at h
      simp [setEntry, hk, ih h]

/-! ### Walking the tree -/

theorem walk_nil (n : Node) : walk [] n = .ok n := by
  cases n <;> rfl

theorem walk_cons_file (c : Str) (cs : List Str) (data : Str) :
    walk (c :: cs) (.file data) = .error .ENOTDIR := rfl

theorem walk_cons_socket (c : Str) (cs : List Str) :
    walk (c :: cs) .socket = .error .ENOTDIR := rfl

theorem walk_cons_dir (c : Str) (cs : List Str) (es : List (Str × Node)) :
    walk (c :: cs) (.dir es) =
      match lookupEntry c es with
      | none => .error .ENOENT
      | some ch => walk cs ch := rfl

theorem walk_append (p q : List Str) (fs : Node) :
    walk (p ++ q) fs =
      match walk p fs with
      | .ok n => walk q n
      | .error e => .error e := by
  induction p generalizing fs with
  | nil => simp [walk_nil]
  | cons c cs ih =>
    cases fs with
    | file data => simp [walk_cons_file]
    | socket => simp [walk_cons_socket]
    | dir es =>
      simp only [List.cons_append, walk_cons_dir]
      cases h : lookupEntry c es with
      | none => rfl
      | some ch => exact ih ch

theorem walk_child {L : List Str} {fs : Node} {es : List (Str × Node)}
    (h : walk L fs = .ok (.dir es)) (a : Str) :
    walk (L ++ [a]) fs =
      match lookupEntry a es with
      | none => .error .ENOENT
      | some ch => .ok ch := by
  rw [walk_append, h]
  simp only [walk_cons_dir]
  cases lookupEntry a es with
  | none => rfl
  | some ch => simp [walk_nil]

theorem walk_parent {L : List Str} {a : Str} {fs n : Node} (h : walk (L ++ [a]) fs = .ok n) :
    ∃ es, walk L fs = .ok (.dir es) ∧ lookupEntry a es = some n := by
  rw [walk_append] at h
  cases hL : walk L fs with
  | error e => simp [hL] at h
  | ok m =>
    rw [hL] at h
    cases m with
    | file data => simp [walk_cons_file] at h
    | socket => simp [walk_cons_socket] at h
    | dir es =>
      refine ⟨es, rfl, ?_⟩
      simp only [walk_cons_dir] at h
      cases hl : lookupEntry a es with
      | none => simp [hl] at h
      | some ch =>
        simp only [hl, walk_nil, Except.ok.injEq] at h
        rw [h]

/-! ### Changing the tree -/

theorem walk_placeAt {p : List Str} {x fs fs' : Node} (h : placeAt p x fs = .ok fs') :
    walk p fs' = .ok x := by
  induction p generalizing fs fs' with
  | nil =>
    simp only [placeAt, Except.ok.injEq] at h
    subst h
    exact walk_nil x
  | cons c cs ih =>
    cases fs with
    | file data => simp [placeAt] at h
    | socket => simp [placeAt] at h
    | dir es =>
      simp only [placeAt] at h
      cases hl : lookupEntry c es with
      | some ch =>
        simp only [hl] at h
        cases hp : placeAt cs x ch with
        | error e => simp [hp] at h
        | ok ch' =>
          simp only [hp, Except.ok.injEq] at h
          subst h
          simp only [walk_cons_dir, lookupEntry_setEntry_same]
          exact ih hp
      | none =>
        simp only [hl] at h
        cases cs with
        | nil =>
          simp only [Except.ok.injEq] at h
          subst h
          simp [walk_cons_dir, lookupEntry_setEntry_same, walk_nil]
        | cons c' cs' => simp at h

theorem removeAt_child {L : List Str} {fs : Node} {es : List (Str × Node)}
    (h : walk L fs = .ok (.dir es)) (a : Str) :
    ∃ fs', removeAt (L ++ [a]) fs = .ok fs' ∧ walk L fs' = .ok (.dir (delEntry a es)) := by
  induction L generalizing fs with
  | nil =>
    simp only [walk_nil, Except.ok.injEq] at h
    subst h
    exact ⟨_, rfl, walk_nil _⟩
  | cons c cs ih =>
    cases fs with
    | file data => simp [walk_cons_file] at h
    | socket => simp [walk_cons_socket] at h
    | dir es' =>
      simp only [walk_cons_dir] at h
      cases hl : lookupEntry c es' with
      | none => simp [hl] at h
      | some ch =>
        simp only [hl] at h
        obtain ⟨ch', hch, hw⟩ := ih h
        refine ⟨.dir (setEntry c ch' es'), ?_, ?_⟩
        · cases hcs : cs ++ [a] with
          | nil => simp at hcs
          | cons c' cs' =>
            rw [hcs] at hch
            simp only [List.cons_append, removeAt, List.append_eq, hcs, hl, hch]
        · simp [walk_cons_dir, lookupEntry_setEntry_same, hw]

theorem walk_mkdirAllAt {p : List Str} {fs fs' : Node} (h : mkdirAllAt p fs = .ok fs') :
    ∃ es, walk p fs' = .ok (.dir es) := by
  induction p generalizing fs fs' with
  | nil =>
    cases fs with
    | file data => simp [mkdirAllAt] at h
    | socket => simp [mkdirAllAt] at h
    | dir es =>
      simp only [mkdirAllAt, Except.ok.injEq] at h
      subst h
      exact ⟨es, walk_nil _⟩
  | cons c cs ih =>
    cases fs with
    | file data => simp [mkdirAllAt] at h
    | socket => simp [mkdirAllAt] at h
    | dir es =>
      simp only [mkdirAllAt] at h
      cases hl : lookupEntry c es with
      | some ch =>
        simp only [hl] at h
        cases hm : mkdirAllAt cs ch with
        | error e => simp [hm] at h
        | ok ch' =>
          simp only [hm, Except.ok.injEq] at h
          subst h
          simp only [walk_cons_dir, lookupEntry_setEntry_same]
          exact ih hm
      | none =>
        simp only [hl, Except.ok.injEq] at h
        subst h
        simp only [walk_cons_dir, lookupEntry_setEntry_same]
        clear hl ih
        induction cs with
        | nil => exact ⟨[], walk_nil _⟩
        | cons c' cs' ih' =>
          simp only [freshDirs, walk_cons_dir, lookupEntry, if_true]
          exact ih'

theorem mkdirAllAt_of_dir {p : List Str} {fs : Node} {es : List (Str × Node)}
    (h : walk p fs = .ok (.dir es)) : mkdirAllAt p fs = .ok fs := by
  induction p generalizing fs with
  | nil =>
    simp only [walk_nil, Except.ok.injEq] at h
    subst h
    rfl
  | cons c cs ih =>
    cases fs with
    | file data => simp [walk_cons_file] at h
    | socket => simp [walk_cons_socket] at h
    | dir es' =>
      simp only [walk_cons_dir] at h
      cases hl : lookupEntry c es' with
      | none => simp [hl] at h
      | some ch =>
        simp only [hl] at h
        simp [mkdirAllAt, hl, ih h, setEntry_lookupEntry hl]
/-! ### Paths of the driver -/

theorem collectionPath_ne_nil (root : Str) {c : Str} (hc : c ≠ []) :
    collectionPath root c ≠ [] := by
  unfold collectionPath
  split
  · exact hc
  · simp

theorem Join_collection (root : Str) {c : Str} (hc : c ≠ []) :
    Join [root, c] = Clean (collectionPath root c) := by
  unfold collectionPath
  split
  · rename_i h
    rw [h, Join_nil_pair hc]
  · rename_i h
    rw [Join_pair h]

theorem Join_record (root : Str) {c : Str} (hc : c ≠ []) (r : Str) :
    Join [root, c, r] = Clean (collectionPath root c ++ '/' :: r) := by
  unfold collectionPath
  split
  · rename_i h
    rw [h, Join_nil_triple hc]
  · rename_i h
    rw [Join_triple h, List.append_assoc, List.cons_append]

theorem Join_collection_file (root : Str) {c : Str} (hc : c ≠ []) (x : Str) :
    Join [Join [root, c], x] = Clean (collectionPath root c ++ '/' :: x) := by
  rw [Join_collection root hc, Join_pair (Clean_ne_nil _),
    Clean_Clean_append_sep (collectionPath_ne_nil root hc)]

theorem locate_collection (root : Str) {c : Str} (hc : c ≠ []) :
    locate (Join [root, c]) = locate (collectionPath root c) := by
  rw [Join_collection root hc, locate_Clean]

theorem locate_record (root : Str) {c : Str} (hc : c ≠ []) {r : Str} (hr : PlainName r) :
    locate (Join [root, c, r]) = locate (Join [root, c]) ++ [r] := by
  rw [Join_record root hc, locate_Clean,
    locate_append_plain (collectionPath_ne_nil root hc) hr, locate_collection root hc]

theorem locate_record_ext (root : Str) {c : Str} (hc : c ≠ []) {r ext : Str}
    (hr : PlainName r) (hre : PlainName (r ++ ext)) :
    locate (Join [root, c, r] ++ ext) = locate (Join [root, c]) ++ [r ++ ext] := by
  rw [Join_record root hc, locate_Clean_append_ext (collectionPath_ne_nil root hc) hr hre,
    locate_collection root hc]

theorem locate_collection_file (root : Str) {c : Str} (hc : c ≠ []) {x : Str}
    (hx : PlainName x) :
    locate (Join [Join [root, c], x]) = locate (Join [root, c]) ++ [x] := by
  rw [Join_collection_file root hc, locate_Clean,
    locate_append_plain (collectionPath_ne_nil root hc) hx, locate_collection root hc]

theorem locate_collection_file_ext (root : Str) {c : Str} (hc : c ≠ []) {x ext : Str}
    (hx : PlainName x) (hxe : PlainName (x ++ ext)) :
    locate (Join [Join [root, c], x] ++ ext) = locate (Join [root, c]) ++ [x ++ ext] := by
  rw [Join_collection_file root hc,
    locate_Clean_append_ext (collectionPath_ne_nil root hc) hx hxe, locate_collection root hc]

theorem Join_record_ne_nil (root : Str) {c : Str} (hc : c ≠ []) (r : Str) :
    Join [root, c, r] ≠ [] := by
  rw [Join_record root hc]
  exact Clean_ne_nil _

theorem Join_collection_ne_nil (root : Str) {c : Str} (hc : c ≠ []) : Join [root, c] ≠ [] := by
  rw [Join_collection root hc]
  exact Clean_ne_nil _

theorem locate_nil : locate [] = [] := by decide

theorem locate_plain {x : Str} (hx : PlainName x) : locate x = [x] := by
  unfold locate
  rw [cleanElems_plain hx, isRooted_plain hx]
  rfl

theorem locate_plain_collection (root : Str) {c : Str} (hc : PlainName c) :
    locate (Join [root, c]) = locate root ++ [c] := by
  rw [locate_collection root hc.1]
  unfold collectionPath
  split
  · rename_i h
    rw [h, locate_nil, locate_plain hc]
    rfl
  · rename_i h
    exact locate_append_plain h hc

theorem locate_plain_collection_ext (root : Str) {c ext : Str} (hc : PlainName c)
    (hce : PlainName (c ++ ext)) :
    locate (Join [root, c] ++ ext) = locate root ++ [c ++ ext] := by
  rw [Join_collection root hc.1]
  unfold collectionPath
  split
  · rename_i h
    rw [h, locate_nil, locate_plain_append_ext hc hce]
    rfl
  · rename_i h
    exact locate_Clean_append_ext h hc hce

/-! ### System calls at a resolved path -/

theorem resolve_of_ne_nil {p : Str} (h : p ≠ []) : resolve p = .ok (locate p) := by
  simp [resolve, h]

theorem append_ne_nil_left {p : Str} (h : p ≠ []) (s : Str) : p ++ s ≠ [] := by
  simp [h]

theorem os_Stat_eq {p : Str} (h : p ≠ []) (fs : Node) :
    os_Stat fs p =
      match walk (locate p) fs with
      | .error e => .error e
      | .ok n => .ok n.info := by
  simp [os_Stat, resolve_of_ne_nil h]

theorem os_ReadFile_eq {p : Str} (h : p ≠ []) (fs : Node) :
    os_ReadFile fs p =
      match walk (locate p) fs with
      | .error e => .error e
      | .ok (.dir _) => .error .EISDIR
      | .ok .socket => .error Errno.ENXIO
      | .ok (.file data) => .ok data := by
  simp [os_ReadFile, resolve_of_ne_nil h]

theorem os_WriteFile_ok {p : Str} {fs fs' : Node} {data : Str}
    (h : os_WriteFile fs p data = .ok fs') :
    walk (locate p) fs' = .ok (.file data) := by
  unfold os_WriteFile at h
  cases hr : resolve p with
  | error e => simp [hr] at h
  | ok loc =>
    have hloc : loc = locate p := by
      unfold resolve at hr
      split at hr
      · simp at hr
      · simpa using hr.symm
    subst hloc
    simp only [hr] at h
    split at h
    · simp at h
    · simp at h
    · exact walk_placeAt h

theorem GetOrCreateMutex_dir (d : Driver) (c : Str) : (d.GetOrCreateMutex c).dir = d.dir := by
  unfold Driver.GetOrCreateMutex
  split <;> rfl

theorem os_Rename_file_ok {o n : Str} {fs fs' : Node} {data : Str}
    (hne : locate o ≠ locate n) (hsrc : walk (locate o) fs = .ok (.file data))
    (h : os_Rename fs o n = .ok fs') :
    walk (locate n) fs' = .ok (.file data) := by
  unfold os_Rename at h
  cases ho : resolve o with
  | error e => simp [ho] at h
  | ok lo =>
    cases hn : resolve n with
    | error e => simp [ho, hn] at h
    | ok ln =>
      have hlo : lo = locate o := by
        unfold resolve at ho
        split at ho
        · simp at ho
        · simpa using ho.symm
      have hln : ln = locate n := by
        unfold resolve at hn
        split at hn
        · simp at hn
        · simpa using hn.symm
      subst hlo hln
      simp only [ho, hn, hsrc, if_neg hne] at h
      split at h
      · simp at h
      · split at h
        · simp at h
        · simp at h
        · simp at h
        · simp at h
        · simp at h
        · cases hrm : removeAt (locate o) fs with
          | error e => simp [hrm] at h
          | ok fs1 =>
            simp only [hrm] at h
            exact walk_placeAt h

/-! ### Write, then Read -/

theorem Write_ok_stored {α : Type} (codec : Codec α) (d : Driver) (fs : Node) (c r : Str)
    (v : α) (hr : PlainName r) (hw : (d.Write codec fs c r v).err = none) :
    c ≠ [] ∧ ∃ b, codec.MarshalIndent v = some b ∧
      walk (locate (Join [d.dir, c]) ++ [r ++ jsonExt]) (d.Write codec fs c r v).fs
        = .ok (.file (b ++ ['\n'])) := by
  unfold Driver.Write at hw ⊢
  by_cases hc : c = []
  · simp [hc] at hw
  · refine ⟨hc, ?_⟩
    have hrne : r ≠ [] := hr.1
    simp only [if_neg hc, if_neg hrne, GetOrCreateMutex_dir] at hw ⊢
    have hrj := plainName_json hr
    have hrjt := plainName_tmp hrj
    cases hmk : os_MkdirAll fs (Join [d.dir, c]) with
    | error e => simp [hmk] at hw
    | ok fs1 =>
      simp only [hmk] at hw ⊢
      cases hm : codec.MarshalIndent v with
      | none => simp [hm] at hw
      | some b =>
        simp only [hm] at hw ⊢
        cases hwf : os_WriteFile fs1 (Join [Join [d.dir, c], r ++ jsonExt] ++ tmpExt)
            (b ++ ['\n']) with
        | error e => simp [hwf] at hw
        | ok fs2 =>
          simp only [hwf] at hw ⊢
          cases hrn : os_Rename fs2 (Join [Join [d.dir, c], r ++ jsonExt] ++ tmpExt)
              (Join [Join [d.dir, c], r ++ jsonExt]) with
          | error e => simp [hrn] at hw
          | ok fs3 =>
            simp only [hrn]
            refine ⟨b, rfl, ?_⟩
            have h1 := os_WriteFile_ok hwf
            have h2 := os_Rename_file_ok (by
              rw [locate_collection_file_ext d.dir hc hrj hrjt,
                locate_collection_file d.dir hc hrj]
              intro heq
              have := congrArg List.length (List.append_cancel_left heq)
              simp [tmpExt] at this
              have := congrArg (fun l => (l.map List.length)) (List.append_cancel_left heq)
              simp [tmpExt] at this) h1 hrn
            rw [locate_collection_file d.dir hc hrj] at h2
            exact h2
theorem Stat_ok_of_json {p : Str} (hp : p ≠ []) {L : List Str} {r rj : Str} {fs n : Node}
    (h1 : locate p = L ++ [r]) (h2 : locate (p ++ jsonExt) = L ++ [rj])
    (h : walk (L ++ [rj]) fs = .ok n) : ∃ fi, Stat fs p = .ok fi := by
  obtain ⟨es, hL, _⟩ := walk_parent h
  unfold Stat
  rw [os_Stat_eq hp, h1, walk_child hL]
  cases lookupEntry r es with
  | some ch => exact ⟨ch.info, rfl⟩
  | none =>
    simp only
    rw [os_Stat_eq (append_ne_nil_left hp _), h2, h]
    exact ⟨n.info, rfl⟩

theorem Read_of_file {α : Type} (codec : Codec α) (d : Driver) (fs : Node) {c r : Str}
    (hc : c ≠ []) (hr : PlainName r) {data : Str}
    (h : walk (locate (Join [d.dir, c]) ++ [r ++ jsonExt]) fs = .ok (.file data)) :
    d.Read codec fs c r =
      match codec.Unmarshal data with
      | none => .error .json
      | some v => .ok v := by
  have hp := Join_record_ne_nil d.dir hc r
  obtain ⟨fi, hfi⟩ := Stat_ok_of_json hp (locate_record d.dir hc hr)
    (locate_record_ext d.dir hc hr (plainName_json hr)) h
  unfold Driver.Read
  simp only [if_neg hc, if_neg hr.1, hfi]
  rw [os_ReadFile_eq (append_ne_nil_left hp _),
    locate_record_ext d.dir hc hr (plainName_json hr), h]

theorem sampleCodec_law (w : Sample) (b : Str) (h : sampleCodec.MarshalIndent w = some b) :
    sampleCodec.Unmarshal (b ++ ['\n']) = some w := by
  cases w with
  | chan => simp [sampleCodec] at h
  | bool x =>
    cases x <;>
    · simp only [sampleCodec, Option.some.injEq] at h
      subst h
      rfl

/-! ### Stat, Read and Delete below a directory -/

theorem walk_child_of_not_dir {L : List Str} {fs : Node}
    (h : ∀ es, walk L fs ≠ .ok (.dir es)) (a : Str) :
    ∃ e, walk (L ++ [a]) fs = .error e := by
  rw [walk_append]
  cases hL : walk L fs with
  | error e => exact ⟨e, rfl⟩
  | ok n =>
    cases n with
    | file data => exact ⟨.ENOTDIR, rfl⟩
    | socket => exact ⟨.ENOTDIR, rfl⟩
    | dir es => exact absurd hL (h es)

theorem Stat_child {p : Str} (hp : p ≠ []) {L : List Str} {r rj : Str} {fs : Node}
    {es : List (Str × Node)} (h1 : locate p = L ++ [r])
    (h2 : locate (p ++ jsonExt) = L ++ [rj]) (hL : walk L fs = .ok (.dir es)) :
    Stat fs p =
      match lookupEntry r es with
      | some n => .ok n.info
      | none =>
        match lookupEntry rj es with
        | some n => .ok n.info
        | none => .error .ENOENT := by
  unfold Stat
  rw [os_Stat_eq hp, h1, walk_child hL]
  cases lookupEntry r es with
  | some ch => rfl
  | none =>
    simp only
    rw [os_Stat_eq (append_ne_nil_left hp _), h2, walk_child hL]
    cases lookupEntry rj es <;> rfl

theorem os_RemoveAll_child {p : Str} (hp : p ≠ []) (hdot : endsWithDot p = false)
    {L : List Str} {x : Str} (hloc : locate p = L ++ [x]) (hx : PlainName x) {fs : Node}
    {es : List (Str × Node)} (hL : walk L fs = .ok (.dir es)) :
    ∃ fs' es', os_RemoveAll fs p = (fs', none) ∧ walk L fs' = .ok (.dir es') ∧
      lookupEntry x es' = none ∧ ∀ y, y ≠ x → lookupEntry y es' = lookupEntry y es := by
  unfold os_RemoveAll
  rw [if_neg hp, hdot, hloc, walk_child hL]
  simp only [Bool.false_eq_true, if_false]
  cases hl : lookupEntry x es with
  | none => exact ⟨fs, es, rfl, hL, hl, fun _ _ => rfl⟩
  | some n =>
    obtain ⟨fs', hrm, hw⟩ := removeAt_child hL x
    have h1 : ¬ (L ++ [x]).getLast? = some ['/'] := by
      rw [List.getLast?_concat, Option.some.injEq]
      intro h
      exact hx.2.1 (by simp [h])
    have h2 : ¬ (L ++ [x]).getLast? = some ['.', '.'] := by
      rw [List.getLast?_concat, Option.some.injEq]
      exact hx.2.2.2
    simp only [if_neg h1, if_neg h2, hrm]
    exact ⟨fs', delEntry x es, rfl, hw, lookupEntry_delEntry_same x es,
      fun y hy => lookupEntry_delEntry_ne hy es⟩
/-! ### Cleaning a path that continues a cleaned path -/

theorem cleanStep_mem {b : Bool} {st : List Str} {e x : Str} (h : x ∈ cleanStep b st e) :
    x ∈ st ∨ (x ≠ [] ∧ x ≠ ['.']) := by
  unfold cleanStep at h
  split at h
  · exact Or.inl h
  · rename_i h1
    simp only [not_or] at h1
    split at h
    · rename_i h2
      cases st with
      | nil =>
        cases b with
        | true => simp at h
        | false =>
          simp only [Bool.false_eq_true, if_false, List.mem_singleton] at h
          exact Or.inr (by rw [h]; exact h1)
      | cons top rest =>
        simp only at h
        split at h
        · simp only [List.mem_cons] at h
          rcases h with h | h | h
          · exact Or.inr (by rw [h]; exact h1)
          · exact Or.inl (by simp [h])
          · exact Or.inl (by simp [h])
        · exact Or.inl (by simp [h])
    · simp only [List.mem_cons] at h
      rcases h with h | h
      · exact Or.inr (by rw [h]; exact h1)
      · exact Or.inl h

theorem foldl_cleanStep_mem {b : Bool} (xs : List Str) {x : Str}
    (h : x ∈ xs.foldl (cleanStep b) []) : x ≠ [] ∧ x ≠ ['.'] := by
  induction xs using List.reverseRecOn with
  | nil => simp at h
  | append_singleton ys e ih =>
    rw [List.foldl_append, List.foldl_cons, List.foldl_nil] at h
    rcases cleanStep_mem h with h' | h'
    · exact ih h'
    · exact h'

theorem foldl_cleanStep_normal (r : Bool) (S xs : List Str) :
    (xs.foldl (cleanStep false) []).reverse.foldl (cleanStep r) S = xs.foldl (cleanStep r) S := by
  induction xs using List.reverseRecOn with
  | nil => rfl
  | append_singleton ys e ih =>
    rw [List.foldl_append, List.foldl_append, List.foldl_cons, List.foldl_nil, List.foldl_cons,
      List.foldl_nil, ← ih]
    by_cases h1 : e = [] ∨ e = ['.']
    · simp [cleanStep, h1]
    · by_cases h2 : e = ['.', '.']
      · subst h2
        cases hT : ys.foldl (cleanStep false) [] with
        | nil => simp [cleanStep]
        | cons top rest =>
          have hm : top ≠ [] ∧ top ≠ ['.'] :=
            foldl_cleanStep_mem ys (b := false) (by rw [hT]; simp)
          by_cases h3 : top = ['.', '.']
          · subst h3
            simp [cleanStep]
          · have hkeep : ∀ A, cleanStep r (cleanStep r A top) ['.', '.'] = A := by
              intro A
              simp [cleanStep, hm.1, hm.2, h3]
            have hpop : cleanStep false (top :: rest) ['.', '.'] = rest := by
              simp [cleanStep, h3]
            rw [hpop, List.reverse_cons, List.foldl_append, List.foldl_cons, List.foldl_nil,
              hkeep]
      · have hpush : ∀ b A, cleanStep b A e = e :: A := by
          intro b A
          simp only [not_or] at h1
          simp [cleanStep, h1.1, h1.2, h2]
        rw [hpush, hpush, List.reverse_cons, List.foldl_append, List.foldl_cons,
          List.foldl_nil, hpush]

theorem foldl_splitSep_Clean (r : Bool) (A : List Str) {s : Str} (hs : isRooted s = false) :
    (splitSep (Clean s)).foldl (cleanStep r) A = (splitSep s).foldl (cleanStep r) A := by
  have hnorm := foldl_cleanStep_normal r A (splitSep s)
  have hE : cleanElems s = ((splitSep s).foldl (cleanStep false) []).reverse := by
    unfold cleanElems
    rw [hs]
  rw [← hE] at hnorm
  rw [← hnorm, Clean_eq_render, hs]
  unfold render
  simp only [Bool.false_eq_true, if_false]
  split
  · rename_i hnil
    rw [hnil]
    simp [splitSep, consHead, cleanStep]
  · rename_i hne
    have hok := stackOk_cleanElems s
    rw [splitSep_joinSep _ hne (fun e he => (stackOk_mem hok (by simpa using he)).1)]

theorem Clean_Clean (p : Str) : Clean (Clean p) = Clean p := by
  rw [Clean_eq_render (Clean p), cleanElems_Clean, isRooted_Clean]
  rfl

theorem Join_Join_unrooted (root : Str) {c : Str} (hc : c ≠ []) (hcr : isRooted c = false)
    (r : Str) : Join [root, Join [c, r]] = Join [root, c, r] := by
  have hs : isRooted (c ++ '/' :: r) = false := by rw [isRooted_append hc, hcr]
  rw [Join_pair hc]
  by_cases h : root = []
  · subst h
    rw [Join_nil_pair (Clean_ne_nil _), Clean_Clean, Join_nil_triple hc]
  · rw [Join_pair h, Join_triple h, Clean_eq_render (root ++ '/' :: Clean (c ++ '/' :: r)),
      Clean_eq_render (root ++ '/' :: (c ++ '/' :: r)), cleanElems_append_sep h,
      cleanElems_append_sep h, isRooted_append h, isRooted_append h, foldl_splitSep_Clean _ _ hs]
/-! ### Paths of Delete -/

theorem cleanElems_append_slash {p : Str} (hp : p ≠ []) :
    cleanElems (p ++ ['/']) = cleanElems p := by
  rw [cleanElems_append_sep hp]
  simp [splitSep, cleanStep_nil]

theorem Clean_append_slash {p : Str} (hp : p ≠ []) : Clean (p ++ ['/']) = Clean p := by
  rw [Clean_eq_render, Clean_eq_render, cleanElems_append_slash hp, isRooted_append hp]

theorem Join_plain_nil {c : Str} (hc : PlainName c) : Join [c, []] = c := by
  rw [Join_pair hc.1, Clean_append_slash hc.1, Clean_plain hc]

theorem Join_root_nil {root : Str} (h : root ≠ []) : Join [root, []] = Clean root := by
  rw [Join_pair h, Clean_append_slash h]

theorem Join_delete_collection (root : Str) {c : Str} (hc : PlainName c) :
    Join [root, Join [c, []]] = Join [root, c] := by
  rw [Join_plain_nil hc]

theorem endsWithDot_record (root : Str) {c : Str} (hc : c ≠ []) {r : Str} (hr : PlainName r) :
    endsWithDot (Join [root, c, r]) = false := by
  rw [Join_record root hc]
  exact endsWithDot_Clean (cleanElems_append_plain (collectionPath_ne_nil root hc) hr)

theorem endsWithDot_collection (root : Str) {c : Str} (hc : PlainName c) :
    endsWithDot (Join [root, c]) = false := by
  rw [Join_collection root hc.1]
  unfold collectionPath
  split
  · exact endsWithDot_Clean (E := []) (by simpa using cleanElems_plain hc)
  · rename_i h
    exact endsWithDot_Clean (cleanElems_append_plain h hc)

/-! ### Delete -/

theorem Delete_driver (d : Driver) (fs : Node) (c r : Str) :
    (d.Delete fs c r).driver = d.GetOrCreateMutex c := by
  unfold Driver.Delete
  simp only
  split
  · rfl
  · split
    · rfl
    · split <;> rfl

theorem Delete_driver_dir (d : Driver) (fs : Node) (c r : Str) :
    (d.Delete fs c r).driver.dir = d.dir := by
  rw [Delete_driver, GetOrCreateMutex_dir]

theorem Delete_record_eq (d : Driver) (fs : Node) {c : Str} (hc : c ≠ [])
    (hcr : isRooted c = false) (r : Str) :
    d.Delete fs c r =
      match Stat fs (Join [d.dir, c, r]) with
      | .error _ =>
        { driver := d.GetOrCreateMutex c, fs := fs,
          err := some (.errorf ("unable to find file or directory named ".toList ++
            Join [c, r] ++ ['\n'])) }
      | .ok fi =>
        if fi.IsDir then
          { driver := d.GetOrCreateMutex c, fs := (os_RemoveAll fs (Join [d.dir, c, r])).1,
            err := (os_RemoveAll fs (Join [d.dir, c, r])).2.map Error.sys }
        else if fi.IsRegular then
          { driver := d.GetOrCreateMutex c,
            fs := (os_RemoveAll fs (Join [d.dir, c, r] ++ jsonExt)).1,
            err := (os_RemoveAll fs (Join [d.dir, c, r] ++ jsonExt)).2.map Error.sys }
        else { driver := d.GetOrCreateMutex c, fs := fs, err := none } := by
  unfold Driver.Delete
  simp only [GetOrCreateMutex_dir, Join_Join_unrooted d.dir hc hcr r]

theorem Delete_collection_eq (d : Driver) (fs : Node) {c : Str} (hc : PlainName c) :
    d.Delete fs c [] =
      match Stat fs (Join [d.dir, c]) with
      | .error _ =>
        { driver := d.GetOrCreateMutex c, fs := fs,
          err := some (.errorf ("unable to find file or directory named ".toList ++
            Join [c, []] ++ ['\n'])) }
      | .ok fi =>
        if fi.IsDir then
          { driver := d.GetOrCreateMutex c, fs := (os_RemoveAll fs (Join [d.dir, c])).1,
            err := (os_RemoveAll fs (Join [d.dir, c])).2.map Error.sys }
        else if fi.IsRegular then
          { driver := d.GetOrCreateMutex c,
            fs := (os_RemoveAll fs (Join [d.dir, c] ++ jsonExt)).1,
            err := (os_RemoveAll fs (Join [d.dir, c] ++ jsonExt)).2.map Error.sys }
        else { driver := d.GetOrCreateMutex c, fs := fs, err := none } := by
  unfold Driver.Delete
  simp only [GetOrCreateMutex_dir, Join_delete_collection d.dir hc]

theorem Write_driver_dir {α : Type} (codec : Codec α) (d : Driver) (fs : Node) (c r : Str)
    (v : α) : (d.Write codec fs c r v).driver.dir = d.dir := by
  unfold Driver.Write
  split
  · rfl
  · split
    · rfl
    · simp only
      repeat' split
      all_goals exact GetOrCreateMutex_dir d c

theorem Write_then_Read {α : Type} (codec : Codec α) (d : Driver) (fs : Node)
    (c r : Str) (v : α)
    (hcodec : ∀ w b, codec.MarshalIndent w = some b → codec.Unmarshal (b ++ ['\n']) = some w)
    (hr : PlainName r) (hw : (d.Write codec fs c r v).err = none) :
    (d.Write codec fs c r v).driver.Read codec (d.Write codec fs c r v).fs c r = .ok v := by
  obtain ⟨hc, b, hb, hfile⟩ := Write_ok_stored codec d fs c r v hr hw
  have hdir := Write_driver_dir codec d fs c r v
  have hfile' : walk (locate (Join [(d.Write codec fs c r v).driver.dir, c]) ++ [r ++ jsonExt])
      (d.Write codec fs c r v).fs = .ok (.file (b ++ ['\n'])) := by
    rw [hdir]
    exact hfile
  rw [Read_of_file codec (d.Write codec fs c r v).driver (d.Write codec fs c r v).fs
    hc hr hfile', hcodec v b hb]

theorem isRegularFile_parent {p : Str} (hp : p ≠ []) {L : List Str} {x : Str} {fs : Node}
    (hloc : locate p = L ++ [x]) (h : isRegularFile fs p = true) :
    ∃ es data, walk L fs = .ok (.dir es) ∧ lookupEntry x es = some (.file data) := by
  unfold isRegularFile at h
  rw [os_Stat_eq hp, hloc] at h
  cases hw : walk (L ++ [x]) fs with
  | error e => simp [hw] at h
  | ok n =>
    obtain ⟨es, hes, hl⟩ := walk_parent hw
    cases n with
    | dir es0 => simp [hw, Node.info] at h
    | socket => simp [hw, Node.info] at h
    | file data => exact ⟨es, data, hes, hl⟩

theorem isDirectory_parent {p : Str} (hp : p ≠ []) {L : List Str} {x : Str} {fs : Node}
    (hloc : locate p = L ++ [x]) (h : isDirectory fs p = true) :
    ∃ es es0, walk L fs = .ok (.dir es) ∧ lookupEntry x es = some (.dir es0) := by
  unfold isDirectory at h
  rw [os_Stat_eq hp, hloc] at h
  cases hw : walk (L ++ [x]) fs with
  | error e => simp [hw] at h
  | ok n =>
    obtain ⟨es, hes, hl⟩ := walk_parent hw
    cases n with
    | file data => simp [hw, Node.info] at h
    | socket => simp [hw, Node.info] at h
    | dir es0 => exact ⟨es, es0, hes, hl⟩

theorem append_json_ne (x : Str) : x ≠ x ++ jsonExt := by
  intro h
  have := congrArg List.length h
  simp [jsonExt] at this

theorem ReadAll_eq (d : Driver) (fs : Node) {c : Str} (hc : c ≠ []) :
    d.ReadAll fs c =
      match Stat fs (Join [d.dir, c]) with
      | .error e => .error (.sys e)
      | .ok _ =>
        readRecords fs (Join [d.dir, c])
          (match os_ReadDir fs (Join [d.dir, c]) with
            | .ok names => names
            | .error _ => []) [] := by
  unfold Driver.ReadAll
  simp only [if_neg hc]

/-! ### Delete at the root, and New -/

theorem endsInName_elems {p : Str} (h : endsInName p = true) :
    ∃ E x, cleanElems p = E ++ [x] ∧ PlainName x := by
  unfold endsInName at h
  rcases List.eq_nil_or_concat (cleanElems p) with hnil | ⟨E, x, hE⟩
  · simp [hnil] at h
  · rw [List.concat_eq_append] at hE
    rw [hE] at h
    simp only [List.getLast?_concat, decide_eq_true_eq] at h
    have hm := stackOk_mem (stackOk_cleanElems p) (e := x) (by simp [hE])
    exact ⟨E, x, hE, hm.2.1, hm.1, hm.2.2, h⟩

theorem isDirectory_ne_nil {fs : Node} {p : Str} (h : isDirectory fs p = true) : p ≠ [] := by
  intro hp
  subst hp
  simp [isDirectory, os_Stat, resolve] at h

theorem os_Stat_Clean (fs : Node) {p : Str} (hp : p ≠ []) :
    os_Stat fs (Clean p) = os_Stat fs p := by
  rw [os_Stat_eq (Clean_ne_nil p), os_Stat_eq hp, locate_Clean]

theorem mkdirAllAt_of_file {p : List Str} {fs : Node} {data : Str}
    (h : walk p fs = .ok (.file data)) : mkdirAllAt p fs = .error .ENOTDIR := by
  induction p generalizing fs with
  | nil =>
    simp only [walk_nil, Except.ok.injEq] at h
    subst h
    rfl
  | cons c cs ih =>
    cases fs with
    | file data' => rfl
    | socket => rfl
    | dir es =>
      simp only [walk_cons_dir] at h
      cases hl : lookupEntry c es with
      | none => simp [hl] at h
      | some ch =>
        simp only [hl] at h
        simp [mkdirAllAt, hl, ih h]

theorem mkdirAllAt_of_socket {p : List Str} {fs : Node}
    (h : walk p fs = .ok .socket) : mkdirAllAt p fs = .error .ENOTDIR := by
  induction p generalizing fs with
  | nil =>
    simp only [walk_nil, Except.ok.injEq] at h
    subst h
    rfl
  | cons c cs ih =>
    cases fs with
    | file data' => rfl
    | socket => rfl
    | dir es =>
      simp only [walk_cons_dir] at h
      cases hl : lookupEntry c es with
      | none => simp [hl] at h
      | some ch =>
        simp only [hl] at h
        simp [mkdirAllAt, hl, ih h]

theorem New_fs (fs : Node) (dir : Str) : (New fs dir).fs = fs := by
  unfold New
  simp only
  cases hst : os_Stat fs (Clean dir) with
  | error e => rfl
  | ok fi =>
    simp only
    rw [os_Stat_eq (Clean_ne_nil dir)] at hst
    cases hw : walk (locate (Clean dir)) fs with
    | error e => simp [hw] at hst
    | ok n =>
      cases n with
      | file data =>
        simp [os_MkdirAll, resolve_of_ne_nil (Clean_ne_nil dir), mkdirAllAt_of_file hw]
      | socket =>
        simp [os_MkdirAll, resolve_of_ne_nil (Clean_ne_nil dir), mkdirAllAt_of_socket hw]
      | dir es =>
        simp [os_MkdirAll, resolve_of_ne_nil (Clean_ne_nil dir), mkdirAllAt_of_dir hw]
/-! ### What a change leaves alone -/

theorem os_Stat_statAt {p : Str} (hp : p ≠ []) (fs : Node) :
    os_Stat fs p = statAt (locate p) fs := by
  rw [os_Stat_eq hp]
  rfl

theorem statAt_nil (n : Node) : statAt [] n = .ok n.info := by
  unfold statAt
  rw [walk_nil]

theorem statAt_cons_dir (c : Str) (cs : List Str) (es : List (Str × Node)) :
    statAt (c :: cs) (.dir es) =
      match lookupEntry c es with
      | none => .error .ENOENT
      | some ch => statAt cs ch := by
  unfold statAt
  rw [walk_cons_dir]
  cases lookupEntry c es <;> rfl

theorem statAt_removeAt {p : List Str} {fs fs' : Node} (h : removeAt p fs = .ok fs')
    (q : List Str) (hq : ¬ p <+: q) : statAt q fs' = statAt q fs := by
  induction p generalizing fs fs' q with
  | nil => exact absurd (List.nil_prefix) hq
  | cons c cs ih =>
    cases fs with
    | file data => simp [removeAt] at h
    | socket => simp [removeAt] at h
    | dir es =>
      cases q with
      | nil =>
        have hdir : ∃ es', fs' = .dir es' := by
          simp only [removeAt] at h
          split at h
          · exact ⟨_, (Except.ok.inj h).symm⟩
          · split at h
            · exact ⟨_, (Except.ok.inj h).symm⟩
            · split at h
              · exact ⟨_, (Except.ok.inj h).symm⟩
              · simp at h
        obtain ⟨es', hes'⟩ := hdir
        rw [hes', statAt_nil, statAt_nil]
        rfl
      | cons b qs =>
        by_cases hb : b = c
        · subst hb
          have hq' : ¬ cs <+: qs := fun hp => hq (by simpa using hp)
          cases cs with
          | nil => exact absurd List.nil_prefix hq'
          | cons c' cs' =>
            simp only [removeAt] at h
            cases hl : lookupEntry b es with
            | none =>
              simp only [hl, Except.ok.injEq] at h
              rw [← h]
            | some ch =>
              simp only [hl] at h
              cases hr : removeAt (c' :: cs') ch with
              | error e => simp [hr] at h
              | ok ch' =>
                simp only [hr, Except.ok.injEq] at h
                rw [← h, statAt_cons_dir, statAt_cons_dir, lookupEntry_setEntry_same, hl]
                exact ih hr qs hq'
        · have hlook : ∀ es', fs' = .dir es' → lookupEntry b es' = lookupEntry b es →
              statAt (b :: qs) fs' = statAt (b :: qs) (.dir es) := by
            intro es' h1 h2
            rw [h1, statAt_cons_dir, statAt_cons_dir, h2]
          simp only [removeAt] at h
          split at h
          · exact hlook _ (Except.ok.inj h).symm (lookupEntry_delEntry_ne hb es)
          · split at h
            · exact hlook _ (Except.ok.inj h).symm rfl
            · split at h
              · exact hlook _ (Except.ok.inj h).symm (lookupEntry_setEntry_ne hb _ es)
              · simp at h

theorem statAt_placeAt {p : List Str} {x fs fs' : Node} (h : placeAt p x fs = .ok fs')
    (q : List Str) (hq : ¬ p <+: q) : statAt q fs' = statAt q fs := by
  induction p generalizing fs fs' q with
  | nil => exact absurd (List.nil_prefix) hq
  | cons c cs ih =>
    cases fs with
    | file data => simp [placeAt] at h
    | socket => simp [placeAt] at h
    | dir es =>
      simp only [placeAt] at h
      cases q with
      | nil =>
        have hdir : ∃ es', fs' = .dir es' := by
          split at h
          · split at h
            · exact ⟨_, (Except.ok.inj h).symm⟩
            · simp at h
          · split at h
            · exact ⟨_, (Except.ok.inj h).symm⟩
            · simp at h
        obtain ⟨es', hes'⟩ := hdir
        rw [hes', statAt_nil, statAt_nil]
        rfl
      | cons b qs =>
        by_cases hb : b = c
        · subst hb
          have hq' : ¬ cs <+: qs := fun hp => hq (by simpa using hp)
          cases hl : lookupEntry b es with
          | none =>
            simp only [hl] at h
            cases cs with
            | nil => exact absurd List.nil_prefix hq'
            | cons c' cs' => simp at h
          | some ch =>
            simp only [hl] at h
            cases hr : placeAt cs x ch with
            | error e => simp [hr] at h
            | ok ch' =>
              simp only [hr, Except.ok.injEq] at h
              rw [← h, statAt_cons_dir, statAt_cons_dir, lookupEntry_setEntry_same, hl]
              exact ih hr qs hq'
        · have hlook : ∀ es', fs' = .dir es' → lookupEntry b es' = lookupEntry b es →
              statAt (b :: qs) fs' = statAt (b :: qs) (.dir es) := by
            intro es' h1 h2
            rw [h1, statAt_cons_dir, statAt_cons_dir, h2]
          split at h
          · split at h
            · exact hlook _ (Except.ok.inj h).symm (lookupEntry_setEntry_ne hb _ es)
            · simp at h
          · split at h
            · exact hlook _ (Except.ok.inj h).symm (lookupEntry_setEntry_ne hb _ es)
            · simp at h

theorem statAt_freshDirs {P : List Str} {a b : Str} (hab : b ≠ a) :
    statAt (P ++ [b]) (freshDirs (P ++ [a])) = .error .ENOENT := by
  induction P with
  | nil =>
    simp only [List.nil_append, freshDirs, statAt_cons_dir, lookupEntry]
    rw [if_neg (Ne.symm hab)]
  | cons c cs ih =>
    simp only [List.cons_append, freshDirs, statAt_cons_dir, lookupEntry, if_true]
    exact ih

theorem statAt_mkdirAllAt_sibling {P : List Str} {a b : Str} {fs fs' : Node}
    (h : mkdirAllAt (P ++ [a]) fs = .ok fs') (hab : b ≠ a) :
    statAt (P ++ [b]) fs' = statAt (P ++ [b]) fs := by
  induction P generalizing fs fs' with
  | nil =>
    cases fs with
    | file data => simp [mkdirAllAt] at h
    | socket => simp [mkdirAllAt] at h
    | dir es =>
      simp only [List.nil_append, mkdirAllAt] at h
      have hlook : ∀ es', fs' = .dir es' → lookupEntry b es' = lookupEntry b es →
          statAt ([] ++ [b]) fs' = statAt ([] ++ [b]) (.dir es) := by
        intro es' h1 h2
        rw [h1, List.nil_append, statAt_cons_dir, statAt_cons_dir, h2]
      split at h
      · split at h
        · exact hlook _ (Except.ok.inj h).symm (lookupEntry_setEntry_ne hab _ es)
        · simp at h
      · exact hlook _ (Except.ok.inj h).symm (lookupEntry_setEntry_ne hab _ es)
  | cons c cs ih =>
    cases fs with
    | file data => simp [mkdirAllAt] at h
    | socket => simp [mkdirAllAt] at h
    | dir es =>
      simp only [List.cons_append, mkdirAllAt, List.append_eq] at h
      cases hl : lookupEntry c es with
      | none =>
        simp only [hl, Except.ok.injEq] at h
        rw [← h, List.cons_append, statAt_cons_dir, statAt_cons_dir,
          lookupEntry_setEntry_same, hl]
        exact statAt_freshDirs hab
      | some ch =>
        simp only [hl] at h
        cases hr : mkdirAllAt (cs ++ [a]) ch with
        | error e => simp [hr] at h
        | ok ch' =>
          simp only [hr, Except.ok.injEq] at h
          rw [← h, List.cons_append, statAt_cons_dir, statAt_cons_dir,
            lookupEntry_setEntry_same, hl]
          exact ih hr

theorem statAt_dir_iff {p : List Str} {fs : Node} :
    statAt p fs = .ok dirInfo ↔ ∃ es, walk p fs = .ok (.dir es) := by
  unfold statAt
  constructor
  · intro h
    cases hw : walk p fs with
    | error e => simp [hw] at h
    | ok n =>
      cases n with
      | file data => simp [hw, Node.info, dirInfo] at h
      | socket => simp [hw, Node.info, dirInfo] at h
      | dir es => exact ⟨es, rfl⟩
  · rintro ⟨es, hes⟩
    rw [hes]
    rfl
theorem resolve_ok {p : Str} {loc : List Str} (h : resolve p = .ok loc) :
    p ≠ [] ∧ loc = locate p := by
  unfold resolve at h
  split at h
  · simp at h
  · rename_i hp
    exact ⟨hp, (Except.ok.inj h).symm⟩

theorem os_WriteFile_frame {p : Str} {fs fs' : Node} {data : Str}
    (h : os_WriteFile fs p data = .ok fs') (q : List Str) (hq : ¬ locate p <+: q) :
    statAt q fs' = statAt q fs := by
  unfold os_WriteFile at h
  cases hr : resolve p with
  | error e => simp [hr] at h
  | ok loc =>
    obtain ⟨_, hloc⟩ := resolve_ok hr
    subst hloc
    simp only [hr] at h
    split at h
    · simp at h
    · simp at h
    · exact statAt_placeAt h q hq

theorem os_Rename_frame {o n : Str} {fs fs' : Node} (h : os_Rename fs o n = .ok fs')
    (q : List Str) (ho : ¬ locate o <+: q) (hn : ¬ locate n <+: q) :
    statAt q fs' = statAt q fs := by
  unfold os_Rename at h
  cases hro : resolve o with
  | error e => simp [hro] at h
  | ok lo =>
    cases hrn : resolve n with
    | error e => simp [hro, hrn] at h
    | ok ln =>
      obtain ⟨_, hlo⟩ := resolve_ok hro
      obtain ⟨_, hln⟩ := resolve_ok hrn
      subst hlo hln
      simp only [hro, hrn] at h
      cases hsrc : walk (locate o) fs with
      | error e => simp [hsrc] at h
      | ok src =>
        simp only [hsrc] at h
        split at h
        · rw [← Except.ok.inj h]
        · split at h
          · simp at h
          · split at h
            · simp at h
            · simp at h
            · simp at h
            · simp at h
            · simp at h
            · cases hrm : removeAt (locate o) fs with
              | error e => simp [hrm] at h
              | ok fs1 =>
                simp only [hrm] at h
                rw [statAt_placeAt h q hn, statAt_removeAt hrm q ho]

theorem os_RemoveAll_frame (fs : Node) (p : Str) (q : List Str) (hq : ¬ locate p <+: q) :
    statAt q (os_RemoveAll fs p).1 = statAt q fs := by
  unfold os_RemoveAll
  split
  · rfl
  · split
    · rfl
    · split
      · rfl
      · rfl
      · split
        · split
          · rename_i h
            exact statAt_placeAt h q hq
          · rfl
        · split
          · split
            · rename_i h
              exact statAt_placeAt h q hq
            · rfl
          · split
            · rename_i h
              exact statAt_removeAt h q hq
            · rfl

theorem not_prefix_longer {p q : List Str} (h : q.length < p.length) : ¬ p <+: q :=
  fun hp => absurd (List.IsPrefix.length_le hp) (by omega)

theorem not_prefix_sibling (L : List Str) {a b : Str} (h : a ≠ b) :
    ¬ (L ++ [a]) <+: (L ++ [b]) := by
  intro hp
  have := List.IsPrefix.eq_of_length hp (by simp)
  exact h (by simpa using this)

theorem os_RemoveAll_gone {p : Str} (hp : p ≠ []) (hdot : endsWithDot p = false)
    {L : List Str} {x : Str} (hloc : locate p = L ++ [x]) (hx : PlainName x) (fs : Node) :
    ∃ e, statAt (L ++ [x]) (os_RemoveAll fs p).1 = .error e := by
  by_cases hL : ∃ es, walk L fs = .ok (.dir es)
  · obtain ⟨es, hes⟩ := hL
    obtain ⟨fs', es', hrm, hw', hnone, _⟩ := os_RemoveAll_child hp hdot hloc hx hes
    refine ⟨.ENOENT, ?_⟩
    rw [hrm]
    unfold statAt
    rw [walk_child hw', hnone]
  · have hL' : ∀ es, walk L fs ≠ .ok (.dir es) := fun es h => hL ⟨es, h⟩
    obtain ⟨e, he⟩ := walk_child_of_not_dir hL' x
    refine ⟨e, ?_⟩
    have hsame : (os_RemoveAll fs p).1 = fs := by
      unfold os_RemoveAll
      rw [if_neg hp, hdot, hloc, he]
      simp only [Bool.false_eq_true, if_false]
      cases e <;> rfl
    rw [hsame]
    unfold statAt
    rw [he]
/-! ### The directories of the collections along a sequence of calls -/

theorem os_MkdirAll_eq {p : Str} (hp : p ≠ []) (fs : Node) :
    os_MkdirAll fs p = mkdirAllAt (locate p) fs := by
  simp [os_MkdirAll, resolve_of_ne_nil hp]

theorem dirsAsDue_of_same {L : List Str} {fs fs' : Node} {b b' : Bool} {c : Str}
    (h : (b = true ∧ statAt (L ++ [c]) fs = .ok dirInfo) ∨
      (b = false ∧ ∃ e, statAt (L ++ [c]) fs = .error e))
    (hfs : statAt (L ++ [c]) fs' = statAt (L ++ [c]) fs) (hdue : b' = b) :
    (b' = true ∧ statAt (L ++ [c]) fs' = .ok dirInfo) ∨
      (b' = false ∧ ∃ e, statAt (L ++ [c]) fs' = .error e) := by
  rw [hfs, hdue]
  exact h

theorem Write_dirsAsDue {α : Type} (codec : Codec α) (d : Driver) (fs : Node) {c' r : Str}
    (v : α) (hc' : PlainName c') (hr : r = [] ∨ PlainName r) {due : Str → Bool}
    (hinv : DirsAsDue (locate d.dir) fs due) :
    DirsAsDue (locate d.dir) (d.Write codec fs c' r v).fs
      (fun c => dueStep c (d, fs) (due c) (Call.write c' r v)) := by
  intro c hc
  beta_reduce
  rcases hr with hr | hr
  · subst hr
    have hfs : (d.Write codec fs c' [] v).fs = fs := by
      simp [Driver.Write, hc'.1]
    exact dirsAsDue_of_same (hinv c hc) (by rw [hfs]) (by simp [dueStep])
  · have hrj := plainName_json hr
    have hrjt := plainName_tmp hrj
    have hp := Join_collection_ne_nil d.dir hc'.1
    have hloc := locate_plain_collection d.dir hc'
    cases hmk : mkdirAllAt (locate d.dir ++ [c']) fs with
    | error e =>
      have hfs : (d.Write codec fs c' r v).fs = fs := by
        unfold Driver.Write
        simp only [if_neg hc'.1, if_neg hr.1, GetOrCreateMutex_dir, os_MkdirAll_eq hp, hloc,
          hmk]
      have hno : mkdirSucceeds (d, fs) c' = false := by
        simp [mkdirSucceeds, os_MkdirAll_eq hp, hloc, hmk]
      exact dirsAsDue_of_same (hinv c hc) (by rw [hfs]) (by simp [dueStep, hno])
    | ok fs1 =>
      have hok : mkdirSucceeds (d, fs) c' = true := by
        simp [mkdirSucceeds, os_MkdirAll_eq hp, hloc, hmk]
      have hfnl : locate (Join [Join [d.dir, c'], r ++ jsonExt]) =
          locate d.dir ++ [c'] ++ [r ++ jsonExt] := by
        rw [locate_collection_file d.dir hc'.1 hrj, hloc]
      have htmp : locate (Join [Join [d.dir, c'], r ++ jsonExt] ++ tmpExt) =
          locate d.dir ++ [c'] ++ [r ++ jsonExt ++ tmpExt] := by
        rw [locate_collection_file_ext d.dir hc'.1 hrj hrjt, hloc]
      have hq1 : ¬ locate (Join [Join [d.dir, c'], r ++ jsonExt]) <+: locate d.dir ++ [c] := by
        rw [hfnl]
        exact not_prefix_longer (by simp)
      have hq2 : ¬ locate (Join [Join [d.dir, c'], r ++ jsonExt] ++ tmpExt) <+:
          locate d.dir ++ [c] := by
        rw [htmp]
        exact not_prefix_longer (by simp)
      have hfs1 : (dueStep c (d, fs) (due c) (Call.write c' r v) = true ∧
            statAt (locate d.dir ++ [c]) fs1 = .ok dirInfo) ∨
          (dueStep c (d, fs) (due c) (Call.write c' r v) = false ∧
            ∃ e, statAt (locate d.dir ++ [c]) fs1 = .error e) := by
        by_cases hcc : c' = c
        · subst hcc
          obtain ⟨es, hes⟩ := walk_mkdirAllAt hmk
          left
          exact ⟨by simp [dueStep, hr.1, hok], statAt_dir_iff.mpr ⟨es, hes⟩⟩
        · exact dirsAsDue_of_same (hinv c hc) (statAt_mkdirAllAt_sibling hmk (Ne.symm hcc))
            (by simp [dueStep, hcc])
      have hkeep : ∀ fsx, statAt (locate d.dir ++ [c]) fsx = statAt (locate d.dir ++ [c]) fs1 →
          (dueStep c (d, fs) (due c) (Call.write c' r v) = true ∧
            statAt (locate d.dir ++ [c]) fsx = .ok dirInfo) ∨
          (dueStep c (d, fs) (due c) (Call.write c' r v) = false ∧
            ∃ e, statAt (locate d.dir ++ [c]) fsx = .error e) := by
        intro fsx hx
        rw [hx]
        exact hfs1
      unfold Driver.Write
      simp only [if_neg hc'.1, if_neg hr.1, GetOrCreateMutex_dir, os_MkdirAll_eq hp, hloc, hmk]
      cases codec.MarshalIndent v with
      | none => exact hfs1
      | some b =>
        simp only
        cases hwf : os_WriteFile fs1 (Join [Join [d.dir, c'], r ++ jsonExt] ++ tmpExt)
            (b ++ ['\n']) with
        | error e => exact hfs1
        | ok fs2 =>
          simp only
          have hfs2 := os_WriteFile_frame hwf _ hq2
          cases hrn : os_Rename fs2 (Join [Join [d.dir, c'], r ++ jsonExt] ++ tmpExt)
              (Join [Join [d.dir, c'], r ++ jsonExt]) with
          | error e => exact hkeep fs2 hfs2
          | ok fs3 => exact hkeep fs3 (by rw [os_Rename_frame hrn _ hq2 hq1, hfs2])

theorem Delete_record_dirsAsDue {α : Type} (d : Driver) (fs : Node) {c' r : Str}
    (hc' : PlainName c') (hr : PlainName r) {due : Str → Bool}
    (hinv : DirsAsDue (locate d.dir) fs due) :
    DirsAsDue (locate d.dir) (d.Delete fs c' r).fs
      (fun c => dueStep c (d, fs) (due c) (Call.delete c' r : Call α)) := by
  intro c hc
  beta_reduce
  have hloc := locate_plain_collection d.dir hc'
  have hl1 : locate (Join [d.dir, c', r]) = locate d.dir ++ [c'] ++ [r] := by
    rw [locate_record d.dir hc'.1 hr, hloc]
  have hl2 : locate (Join [d.dir, c', r] ++ jsonExt) = locate d.dir ++ [c'] ++ [r ++ jsonExt] := by
    rw [locate_record_ext d.dir hc'.1 hr (plainName_json hr), hloc]
  have hq1 : ¬ locate (Join [d.dir, c', r]) <+: locate d.dir ++ [c] := by
    rw [hl1]
    exact not_prefix_longer (by simp)
  have hq2 : ¬ locate (Join [d.dir, c', r] ++ jsonExt) <+: locate d.dir ++ [c] := by
    rw [hl2]
    exact not_prefix_longer (by simp)
  have hsame : statAt (locate d.dir ++ [c]) (d.Delete fs c' r).fs
      = statAt (locate d.dir ++ [c]) fs := by
    rw [Delete_record_eq d fs hc'.1 (isRooted_plain hc') r]
    split
    · rfl
    · split
      · exact os_RemoveAll_frame fs _ _ hq1
      · split
        · exact os_RemoveAll_frame fs _ _ hq2
        · rfl
  exact dirsAsDue_of_same (hinv c hc) hsame (by simp [dueStep, hr.1])
theorem Delete_collection_dirsAsDue {α : Type} (d : Driver) (fs : Node) {c' : Str}
    (hc' : PlainName c') {due : Str → Bool} (hinv : DirsAsDue (locate d.dir) fs due) :
    DirsAsDue (locate d.dir) (d.Delete fs c' []).fs
      (fun c => dueStep c (d, fs) (due c) (Call.delete c' [] : Call α)) := by
  intro c hc
  beta_reduce
  have hp := Join_collection_ne_nil d.dir hc'.1
  have hcj := plainName_json hc'
  have hl1 := locate_plain_collection d.dir hc'
  have hl2 := locate_plain_collection_ext d.dir hc' hcj
  have hdot := endsWithDot_collection d.dir hc'
  have hstat1 : os_Stat fs (Join [d.dir, c']) = statAt (locate d.dir ++ [c']) fs := by
    rw [os_Stat_statAt hp, hl1]
  have hstat2 : os_Stat fs (Join [d.dir, c'] ++ jsonExt)
      = statAt (locate d.dir ++ [c' ++ jsonExt]) fs := by
    rw [os_Stat_statAt (append_ne_nil_left hp _), hl2]
  -- the file system after the call is the one before it, or the one without `<root>/c'`
  have hout : (d.Delete fs c' []).fs = fs ∧ (∃ e, statAt (locate d.dir ++ [c']) fs = .error e) ∨
      (d.Delete fs c' []).fs = (os_RemoveAll fs (Join [d.dir, c'])).1 := by
    rw [Delete_collection_eq d fs hc']
    unfold Stat
    rw [hstat1, hstat2]
    rcases hinv c' hc' with ⟨_, h1⟩ | ⟨_, e, h1⟩
    · right
      rw [h1]
      rfl
    · rw [h1]
      by_cases he : e = .ENOENT
      · subst he
        rcases hinv _ hcj with ⟨_, h2⟩ | ⟨_, e2, h2⟩
        · right
          rw [h2]
          rfl
        · left
          rw [h2]
          exact ⟨rfl, _, rfl⟩
      · left
        exact ⟨by cases e <;> first | rfl | exact absurd rfl he, e, rfl⟩
  by_cases hcc : c' = c
  · subst hcc
    right
    refine ⟨by simp [dueStep], ?_⟩
    rcases hout with ⟨h1, h2⟩ | h1
    · rw [h1]
      exact h2
    · rw [h1]
      exact os_RemoveAll_gone hp hdot hl1 hc' fs
  · have hsame : statAt (locate d.dir ++ [c]) (d.Delete fs c' []).fs
        = statAt (locate d.dir ++ [c]) fs := by
      rcases hout with ⟨h1, _⟩ | h1
      · rw [h1]
      · rw [h1, os_RemoveAll_frame fs _ _ (by rw [hl1]; exact not_prefix_sibling _ hcc)]
    exact dirsAsDue_of_same (hinv c hc) hsame (by simp [dueStep, hcc])

theorem Call_run_dirsAsDue {α : Type} (codec : Codec α) (s : Driver × Node) (call : Call α)
    (hplain : call.Plain) {due : Str → Bool} (hinv : DirsAsDue (locate s.1.dir) s.2 due) :
    (Call.run codec s call).1.dir = s.1.dir ∧
    DirsAsDue (locate s.1.dir) (Call.run codec s call).2
      (fun c => dueStep c s (due c) call) := by
  cases call with
  | write c' r v =>
    exact ⟨Write_driver_dir codec s.1 s.2 c' r v,
      Write_dirsAsDue codec s.1 s.2 v hplain.1 hplain.2 hinv⟩
  | delete c' r =>
    refine ⟨Delete_driver_dir s.1 s.2 c' r, ?_⟩
    rcases hplain.2 with hr | hr
    · subst hr
      exact Delete_collection_dirsAsDue s.1 s.2 hplain.1 hinv
    · exact Delete_record_dirsAsDue s.1 s.2 hplain.1 hr hinv

theorem runCalls_dirsAsDue {α : Type} (codec : Codec α) (calls : List (Call α)) :
    ∀ (s : Driver × Node) (due : Str → Bool), DirsAsDue (locate s.1.dir) s.2 due →
      (∀ call ∈ calls, call.Plain) →
      DirsAsDue (locate s.1.dir) (runCalls codec s calls).2
        (fun c => dirDue codec c s (due c) calls) := by
  induction calls with
  | nil =>
    intro s due hinv _
    exact hinv
  | cons call rest ih =>
    intro s due hinv hplain
    obtain ⟨hdir, hstep⟩ := Call_run_dirsAsDue codec s call (hplain call (by simp)) hinv
    have := ih (Call.run codec s call) (fun c => dueStep c s (due c) call)
      (by rw [hdir]; exact hstep) (fun x hx => hplain x (by simp [hx]))
    rw [hdir] at this
    exact this

theorem New_driver_dir (fs : Node) (dir : Str) : (New fs dir).driver.dir = Clean dir := by
  unfold New
  simp only
  split
  · rfl
  · split <;> rfl

theorem stat_in_empty_fs (root : Str) {c : Str} (hc : PlainName c) :
    nothingAt (.dir []) (Join [root, c]) = true := by
  unfold nothingAt
  rw [os_Stat_statAt (Join_collection_ne_nil root hc.1), locate_plain_collection root hc]
  cases locate root with
  | nil => rfl
  | cons x xs => rfl

theorem dirsAsDue_of_no_collection {fs : Node} {root : Str}
    (h : ∀ c, PlainName c → nothingAt fs (Join [root, c]) = true) :
    DirsAsDue (locate root) fs (fun _ => false) := by
  intro c hc
  right
  refine ⟨rfl, ?_⟩
  rw [← locate_plain_collection root hc, ← os_Stat_statAt (Join_collection_ne_nil root hc.1)]
  have := h c hc
  unfold nothingAt at this
  cases hs : os_Stat fs (Join [root, c]) with
  | ok fi => simp [hs] at this
  | error e => exact ⟨e, rfl⟩

theorem isDirectory_as_due {L : List Str} {fs : Node} {c : Str} {b : Bool}
    (h : (b = true ∧ statAt (L ++ [c]) fs = .ok dirInfo) ∨
      (b = false ∧ ∃ e, statAt (L ++ [c]) fs = .error e)) :
    (match statAt (L ++ [c]) fs with
      | .ok fi => fi.IsDir
      | .error _ => false) = b := by
  rcases h with ⟨hb, h⟩ | ⟨hb, e, h⟩
  · rw [h, hb]
    rfl
  · rw [h, hb]
theorem sampleCalls_plain : ∀ call ∈ sampleCalls, call.Plain := by
  intro call h
  simp only [sampleCalls, List.mem_cons, List.mem_singleton, List.not_mem_nil, or_false] at h
  rcases h with h | h | h
  · subst h
    exact ⟨by decide, Or.inr (by decide)⟩
  · subst h
    exact ⟨by decide, Or.inr (by decide)⟩
  · subst h
    exact ⟨by decide, Or.inl rfl⟩

theorem stat_under_file {c : Str} (hc : PlainName c) :
    nothingAt storeRootFile (Join [Clean (db ++ '/' :: db), c]) = true := by
  unfold nothingAt
  rw [os_Stat_statAt (Join_collection_ne_nil _ hc.1), locate_plain_collection _ hc]
  rfl
/-! ### The record path of `Delete` and of `Read` -/

theorem walk_removeAt_self : ∀ (loc : List Str), loc ≠ [] → ∀ (n n' : Node),
    removeAt loc n = .ok n' → walk loc n' = .error .ENOENT := by
  intro loc
  induction loc with
  | nil => intro h; exact absurd rfl h
  | cons c cs ih =>
    intro _ n n' h
    cases n with
    | file data => simp [removeAt] at h
    | socket => simp [removeAt] at h
    | dir es =>
      cases cs with
      | nil =>
        simp only [removeAt, Except.ok.injEq] at h
        subst h
        rw [walk_cons_dir, lookupEntry_delEntry_same]
      | cons c2 cs2 =>
        simp only [removeAt] at h
        cases hl : lookupEntry c es with
        | none =>
          simp only [hl, Except.ok.injEq] at h
          subst h
          rw [walk_cons_dir, hl]
        | some ch =>
          simp only [hl] at h
          cases hr : removeAt (c2 :: cs2) ch with
          | error e => simp [hr] at h
          | ok ch' =>
            simp only [hr, Except.ok.injEq] at h
            subst h
            rw [walk_cons_dir, lookupEntry_setEntry_same]
            exact ih (by simp) ch ch' hr

theorem os_RemoveAll_ok {q : Str} (hq : q ≠ []) {fs : Node}
    (h : (os_RemoveAll fs q).2 = none) :
    endsWithDot q = false ∧
    (locate q ≠ [] → walk (locate q) (os_RemoveAll fs q).1 = .error .ENOENT) ∧
    ((∃ n, walk (locate q) fs = .ok n) →
      (locate q).getLast? ≠ some ['/'] ∧ (locate q).getLast? ≠ some ['.', '.']) := by
  unfold os_RemoveAll at h ⊢
  rw [if_neg hq] at h ⊢
  cases hdot : endsWithDot q with
  | true => simp [hdot] at h
  | false =>
    simp only [hdot, Bool.false_eq_true, if_false] at h ⊢
    refine ⟨trivial, ?_⟩
    cases hw : walk (locate q) fs with
    | error e =>
      rw [hw] at h
      cases e with
      | ENOENT => exact ⟨fun _ => hw, fun ⟨n, hn⟩ => by simp at hn⟩
      | _ => simp at h
    | ok n =>
      simp only [hw] at h ⊢
      by_cases h1 : (locate q).getLast? = some ['/']
      · rw [if_pos h1] at h
        cases hpl : placeAt (locate q) n.emptied fs <;> simp [hpl] at h
      · rw [if_neg h1] at h ⊢
        by_cases h2 : (locate q).getLast? = some ['.', '.']
        · rw [if_pos h2] at h
          cases hpl : placeAt (locate q) n.emptied fs <;> simp [hpl] at h
        · rw [if_neg h2] at h ⊢
          cases hrm : removeAt (locate q) fs with
          | error e => simp [hrm] at h
          | ok fs' =>
            exact ⟨fun hne => walk_removeAt_self _ hne _ _ hrm, fun _ => ⟨h1, h2⟩⟩

theorem plainName_json_of_elem {x : Str} (h1 : '/' ∉ x) : PlainName (x ++ jsonExt) := by
  refine ⟨by simp [jsonExt], ?_, ?_, ?_⟩
  · simp [jsonExt, h1]
  · intro h
    have := congrArg List.getLast? h
    simp [jsonExt] at this
  · intro h
    have := congrArg List.getLast? h
    simp [jsonExt] at this

theorem locate_clean_json (s : Str) :
    (∃ L x, locate (Clean s) = L ++ [x] ∧ locate (Clean s ++ jsonExt) = L ++ [x ++ jsonExt]) ∨
    Clean s = ['.'] ∨ Clean s = ['/'] := by
  rcases List.eq_nil_or_concat (cleanElems s) with h | ⟨E, x, h⟩
  · right
    rw [Clean_eq_render, h]
    cases isRooted s <;> simp [render, joinSep]
  · left
    rw [List.concat_eq_append] at h
    have hm := stackOk_mem (stackOk_cleanElems s) (e := x) (by simp [h])
    obtain ⟨h1, h2⟩ := cleanElems_Clean_append_ext h (plainName_json_of_elem hm.1)
    refine ⟨(if isRooted s then [['/']] else []) ++ E, x, ?_, ?_⟩
    · rw [locate_Clean]
      unfold locate
      rw [h, List.append_assoc]
    · unfold locate
      rw [h1, h2, List.append_assoc]

theorem Join_record_clean (root : Str) {c : Str} (hc : c ≠ []) (r : Str) :
    ∃ s, Join [root, c, r] = Clean s :=
  ⟨_, Join_record root hc r⟩

theorem not_json_prefix (s : Str) :
    ¬ locate (Clean s ++ jsonExt) <+: locate (Clean s) := by
  rcases locate_clean_json s with ⟨L, x, h1, h2⟩ | h | h
  · rw [h1, h2]
    exact not_prefix_sibling L (Ne.symm (append_json_ne x))
  · rw [h]
    decide
  · rw [h]
    decide

theorem locate_json_ne_nil (s : Str) : locate (Clean s ++ jsonExt) ≠ [] := by
  rcases locate_clean_json s with ⟨L, x, _, h2⟩ | h | h
  · rw [h2]
    simp
  · rw [h]
    decide
  · rw [h]
    decide

theorem Stat_info {fs : Node} {p : Str} {fi : FileInfo} (h : Stat fs p = .ok fi) :
    fi.IsDir = true → fi.IsRegular = false := by
  have key : ∀ q, os_Stat fs q = .ok fi → fi.IsDir = true → fi.IsRegular = false := by
    intro q hq
    unfold os_Stat at hq
    cases hrs : resolve q with
    | error e => simp [hrs] at hq
    | ok loc =>
      simp only [hrs] at hq
      cases hw : walk loc fs with
      | error e => simp [hw] at hq
      | ok n =>
        simp only [hw, Except.ok.injEq] at hq
        subst hq
        cases n <;> simp [Node.info]
  unfold Stat at h
  cases hs : os_Stat fs p with
  | ok fi' =>
    rw [hs] at h
    exact key p (by rw [hs]; exact h)
  | error e =>
    rw [hs] at h
    cases e with
    | ENOENT => exact key _ h
    | _ => simp at h

theorem Delete_eq_of_path (d : Driver) (fs : Node) {c r : Str}
    (hpath : Join [d.dir, Join [c, r]] = Join [d.dir, c, r]) :
    d.Delete fs c r =
      match Stat fs (Join [d.dir, c, r]) with
      | .error _ =>
        { driver := d.GetOrCreateMutex c, fs := fs,
          err := some (.errorf ("unable to find file or directory named ".toList ++
            Join [c, r] ++ ['\n'])) }
      | .ok fi =>
        if fi.IsDir then
          { driver := d.GetOrCreateMutex c, fs := (os_RemoveAll fs (Join [d.dir, c, r])).1,
            err := (os_RemoveAll fs (Join [d.dir, c, r])).2.map Error.sys }
        else if fi.IsRegular then
          { driver := d.GetOrCreateMutex c,
            fs := (os_RemoveAll fs (Join [d.dir, c, r] ++ jsonExt)).1,
            err := (os_RemoveAll fs (Join [d.dir, c, r] ++ jsonExt)).2.map Error.sys }
        else { driver := d.GetOrCreateMutex c, fs := fs, err := none } := by
  unfold Driver.Delete
  simp only [GetOrCreateMutex_dir, hpath]

theorem Read_eq {α : Type} (codec : Codec α) (d : Driver) (fs : Node) {c r : Str}
    (hc : c ≠ []) (hr : r ≠ []) :
    d.Read codec fs c r =
      match Stat fs (Join [d.dir, c, r]) with
      | .error e => .error (.sys e)
      | .ok _ =>
        match os_ReadFile fs (Join [d.dir, c, r] ++ jsonExt) with
        | .error e => .error (.sys e)
        | .ok b =>
          match codec.Unmarshal b with
          | none => .error .json
          | some v => .ok v := by
  unfold Driver.Read
  rw [if_neg hc, if_neg hr]

theorem Read_of_missing {α : Type} (codec : Codec α) (d : Driver) (fs : Node) {c r : Str}
    (hc : c ≠ []) (hr : r ≠ [])
    (hq : walk (locate (Join [d.dir, c, r] ++ jsonExt)) fs = .error .ENOENT)
    (hp : (∃ fi, os_Stat fs (Join [d.dir, c, r]) = .ok fi) ∨
      os_Stat fs (Join [d.dir, c, r]) = .error .ENOENT) :
    d.Read codec fs c r = .error (.sys .ENOENT) := by
  have hne := append_ne_nil_left (Join_record_ne_nil d.dir hc r) jsonExt
  have hsq : os_Stat fs (Join [d.dir, c, r] ++ jsonExt) = .error .ENOENT := by
    rw [os_Stat_eq hne, hq]
  have hrq : os_ReadFile fs (Join [d.dir, c, r] ++ jsonExt) = .error .ENOENT := by
    rw [os_ReadFile_eq hne, hq]
  rw [Read_eq codec d fs hc hr]
  unfold Stat
  rcases hp with ⟨fi, hfi⟩ | hmiss
  · rw [hfi]
    simp only [hrq]
  · rw [hmiss]
    simp only [hsq]

theorem walk_of_os_Stat_error {q : Str} (hq : q ≠ []) {fs : Node} {e : Errno}
    (h : os_Stat fs q = .error e) : walk (locate q) fs = .error e := by
  rw [os_Stat_eq hq] at h
  cases hw : walk (locate q) fs with
  | error e' =>
    rw [hw] at h
    simpa using h
  | ok n => simp [hw] at h

theorem Stat_ok_cases {fs : Node} {p : Str} {fi : FileInfo} (h : Stat fs p = .ok fi) :
    (∃ fi', os_Stat fs p = .ok fi') ∨ os_Stat fs p = .error .ENOENT := by
  unfold Stat at h
  cases hs : os_Stat fs p with
  | ok fi' => exact Or.inl ⟨fi', rfl⟩
  | error e =>
    rw [hs] at h
    cases e with
    | ENOENT => exact Or.inr rfl
    | _ => simp at h

theorem os_Stat_of_Stat {fs : Node} {p : Str} {fi : FileInfo} (h : Stat fs p = .ok fi)
    (hq : os_Stat fs (p ++ jsonExt) = .error .ENOENT) : os_Stat fs p = .ok fi := by
  unfold Stat at h
  cases hs : os_Stat fs p with
  | ok fi' =>
    rw [hs] at h
    exact h
  | error e =>
    rw [hs] at h
    cases e with
    | ENOENT =>
      rw [hq] at h
      simp at h
    | _ => simp at h
/-! ## The claims -/

/-- C1 (amended): the value written under a plain resource name is the value
read back.  For every store state, every non-empty collection, every plain
resource name (non-empty, no separator, not `.` or `..`) and every value, if
the JSON codec decodes what it encoded and `Write` succeeds, then `Read` with
the same names succeeds and returns the value. -/
theorem write_read_round_trip {α : Type} (codec : Codec α) (d : Driver) (fs : Node)
    (c r : Str) (v : α)
    (hcodec : ∀ w b, codec.MarshalIndent w = some b → codec.Unmarshal (b ++ ['\n']) = some w)
    (hr : PlainName r) (hw : (d.Write codec fs c r v).err = none) :
    (d.Write codec fs c r v).driver.Read codec (d.Write codec fs c r v).fs c r = .ok v :=
  Write_then_Read codec d fs c r v hcodec hr hw

/-- C1 (amended), on the empty file system with `users` and `bruce`. -/
theorem write_read_round_trip_witness :
    PlainName bruce ∧
    (sampleDriver.Write sampleCodec (.dir []) users bruce (.bool true)).err = none ∧
    (sampleDriver.Write sampleCodec (.dir []) users bruce (.bool true)).driver.Read sampleCodec
      (sampleDriver.Write sampleCodec (.dir []) users bruce (.bool true)).fs users bruce
      = .ok (.bool true) :=
  ⟨by decide, rfl,
    write_read_round_trip sampleCodec sampleDriver (.dir []) users bruce (.bool true)
      sampleCodec_law (by decide) rfl⟩

/-- C1, as stated, fails: `Write` under the resource name `.` stores the file
`db/users/..json` and succeeds, and `Read` of the same names looks for
`db/users.json` and reports that it does not exist. -/
theorem write_read_dot_counterexample :
    (users ≠ [] ∧ (['.'] : Str) ≠ []) ∧
    (sampleDriver.Write sampleCodec (.dir []) users ['.'] (.bool true)).err = none ∧
    (sampleDriver.Write sampleCodec (.dir []) users ['.'] (.bool true)).driver.Read sampleCodec
      (sampleDriver.Write sampleCodec (.dir []) users ['.'] (.bool true)).fs users ['.']
      = .error (.sys .ENOENT) :=
  ⟨by decide, rfl, rfl⟩

/-- C2 (amended): after a successful `Delete` the resource is not found.
For every store state, every non-empty collection `c` and every non-empty
resource `r` for which `Delete` and `Read` resolve the same path
(`filepath.Join(root, filepath.Join(c, r))` is `filepath.Join(root, c, r)`,
as it is whenever `c` does not begin with `/`): if what `Delete` finds for
`r`, at `<root>/c/r` or else at `<root>/c/r.json`, is a regular file, or if
`<root>/c/r.json` does not exist, then whenever `Delete(c, r)` succeeds,
`Read(c, r)` fails with ENOENT. -/
theorem delete_then_read_not_found {α : Type} (codec : Codec α) (d : Driver) (fs : Node)
    (c r : Str) (hc : c ≠ []) (hr : r ≠ [])
    (hpath : Join [d.dir, Join [c, r]] = Join [d.dir, c, r])
    (hreg : foundRegular fs (Join [d.dir, c, r]) = true ∨
      os_Stat fs (Join [d.dir, c, r] ++ jsonExt) = .error .ENOENT)
    (hd : (d.Delete fs c r).err = none) :
    (d.Delete fs c r).driver.Read codec (d.Delete fs c r).fs c r = .error (.sys .ENOENT) := by
  obtain ⟨s, hs⟩ := Join_record_clean d.dir hc r
  have hp := Join_record_ne_nil d.dir hc r
  have hq := append_ne_nil_left hp jsonExt
  have hdir := Delete_driver_dir d fs c r
  have hread : ∀ fs', walk (locate (Join [d.dir, c, r] ++ jsonExt)) fs' = .error .ENOENT →
      ((∃ fi, os_Stat fs' (Join [d.dir, c, r]) = .ok fi) ∨
        os_Stat fs' (Join [d.dir, c, r]) = .error .ENOENT) →
      (d.Delete fs c r).driver.Read codec fs' c r = .error (.sys .ENOENT) := by
    intro fs' h1 h2
    apply Read_of_missing codec _ fs' hc hr
    · rw [hdir]
      exact h1
    · rw [hdir]
      exact h2
  have hout := Delete_eq_of_path d fs hpath
  cases hS : Stat fs (Join [d.dir, c, r]) with
  | error e =>
    rw [hS] at hout
    rw [hout] at hd
    simp at hd
  | ok fi =>
    rw [hS] at hout
    simp only at hout
    have hmiss : fi.IsRegular = false →
        os_Stat fs (Join [d.dir, c, r] ++ jsonExt) = .error .ENOENT := by
      intro hno
      rcases hreg with h | h
      · unfold foundRegular at h
        rw [hS] at h
        simp [hno] at h
      · exact h
    by_cases hD : fi.IsDir = true
    · -- a directory: `Delete` removes it
      rw [if_pos hD] at hout
      have hfs : (d.Delete fs c r).fs = (os_RemoveAll fs (Join [d.dir, c, r])).1 := by
        rw [hout]
      have herr : (os_RemoveAll fs (Join [d.dir, c, r])).2 = none := by
        rw [hout] at hd
        simpa using hd
      have hQ := hmiss (Stat_info hS hD)
      have hPs := os_Stat_of_Stat hS hQ
      obtain ⟨hdot, hgone, hlast⟩ := os_RemoveAll_ok hp herr
      have hwalk : ∃ n, walk (locate (Join [d.dir, c, r])) fs = .ok n := by
        rw [os_Stat_eq hp] at hPs
        cases hw : walk (locate (Join [d.dir, c, r])) fs with
        | error e => simp [hw] at hPs
        | ok n => exact ⟨n, rfl⟩
      obtain ⟨hl1, _⟩ := hlast hwalk
      rw [hs] at hdot hl1 hgone
      rcases locate_clean_json s with ⟨L, x, h1, h2⟩ | h | h
      · have hg := hgone (by rw [h1]; simp)
        rw [← hs] at h1 h2 hg
        have hfr := os_RemoveAll_frame fs (Join [d.dir, c, r])
          (locate (Join [d.dir, c, r] ++ jsonExt))
          (by rw [h1, h2]; exact not_prefix_sibling L (append_json_ne x))
        rw [hfs]
        apply hread
        · apply walk_of_os_Stat_error hq
          rw [os_Stat_statAt hq, hfr, ← os_Stat_statAt hq]
          exact hQ
        · right
          rw [os_Stat_eq hp, hg]
      · rw [h] at hdot
        exact absurd hdot (by decide)
      · rw [h] at hl1
        exact absurd rfl hl1
    · by_cases hR : fi.IsRegular = true
      · -- a regular file: `Delete` removes the path with `.json`
        rw [if_neg hD, if_pos hR] at hout
        have hfs : (d.Delete fs c r).fs
            = (os_RemoveAll fs (Join [d.dir, c, r] ++ jsonExt)).1 := by
          rw [hout]
        have herr : (os_RemoveAll fs (Join [d.dir, c, r] ++ jsonExt)).2 = none := by
          rw [hout] at hd
          simpa using hd
        obtain ⟨_, hgone, _⟩ := os_RemoveAll_ok hq herr
        have hg := hgone (by rw [hs]; exact locate_json_ne_nil s)
        have hfr := os_RemoveAll_frame fs (Join [d.dir, c, r] ++ jsonExt)
          (locate (Join [d.dir, c, r])) (by rw [hs]; exact not_json_prefix s)
        rw [hfs]
        apply hread _ hg
        rw [os_Stat_statAt hp, hfr, ← os_Stat_statAt hp]
        exact Stat_ok_cases hS
      · -- another kind of object: `Delete` does nothing
        rw [if_neg hD, if_neg hR] at hout
        have hfs : (d.Delete fs c r).fs = fs := by
          rw [hout]
        have hQ := hmiss (by simpa using hR)
        rw [hfs]
        exact hread fs (walk_of_os_Stat_error hq hQ) (Or.inl ⟨fi, os_Stat_of_Stat hS hQ⟩)

/-- C2 (amended), on the store that holds `db/users/bruce.json`, where
`Delete` finds a regular file, and on the store in which `db/users/bruce` is
a directory and `bruce.json` does not exist. -/
theorem delete_then_read_not_found_witness :
    (users ≠ [] ∧ bruce ≠ [] ∧
      Join [sampleDriver.dir, Join [users, bruce]] = Join [sampleDriver.dir, users, bruce]) ∧
    (foundRegular storeBruce (Join [sampleDriver.dir, users, bruce]) = true ∧
      (sampleDriver.Delete storeBruce users bruce).err = none ∧
      (sampleDriver.Delete storeBruce users bruce).driver.Read sampleCodec
        (sampleDriver.Delete storeBruce users bruce).fs users bruce
        = .error (.sys .ENOENT)) ∧
    (os_Stat storeBruceFolder (Join [sampleDriver.dir, users, bruce] ++ jsonExt)
        = .error .ENOENT ∧
      (sampleDriver.Delete storeBruceFolder users bruce).err = none ∧
      (sampleDriver.Delete storeBruceFolder users bruce).driver.Read sampleCodec
        (sampleDriver.Delete storeBruceFolder users bruce).fs users bruce
        = .error (.sys .ENOENT)) :=
  ⟨⟨by decide, by decide, rfl⟩,
    ⟨rfl, rfl,
      delete_then_read_not_found sampleCodec sampleDriver storeBruce users bruce
        (by decide) (by decide) rfl (Or.inl rfl) rfl⟩,
    ⟨rfl, rfl,
      delete_then_read_not_found sampleCodec sampleDriver storeBruceFolder users bruce
        (by decide) (by decide) rfl (Or.inr rfl) rfl⟩⟩

/-- C2, as stated, fails.  When `db/users/bruce` is a directory `Delete`
removes that directory, and when it is a socket `Delete` removes nothing;
both times `Delete` succeeds and `Read` still returns the value of
`db/users/bruce.json`.  When `db/users/bruce.json` is itself a directory and
`db/users/bruce` does not exist, `Delete` succeeds, removes nothing, and
`Read` fails with EISDIR, not with ENOENT.  With the collection `/..`,
`Delete` works on `db/bruce` and removes `db/bruce.json`, and `Read` returns
the value of `bruce.json` in the working directory.  With the resource `.`,
the path is the directory of the collection: `Delete` removes `db/users` and
`Read` returns the value of `db/users.json`.  With the empty resource
`Delete` removes the collection and `Read` rejects the name with an error
made by `fmt.Errorf`, which reports no missing file. -/
theorem delete_directory_counterexample :
    ((sampleDriver.Delete storeBruceDir users bruce).err = none ∧
      (sampleDriver.Delete storeBruceDir users bruce).driver.Read sampleCodec
        (sampleDriver.Delete storeBruceDir users bruce).fs users bruce = .ok (.bool true)) ∧
    ((sampleDriver.Delete storeBruceSocket users bruce).err = none ∧
      (sampleDriver.Delete storeBruceSocket users bruce).driver.Read sampleCodec
        (sampleDriver.Delete storeBruceSocket users bruce).fs users bruce
        = .ok (.bool true)) ∧
    ((sampleDriver.Delete storeJsonDir users bruce).err = none ∧
      (sampleDriver.Delete storeJsonDir users bruce).driver.Read sampleCodec
        (sampleDriver.Delete storeJsonDir users bruce).fs users bruce
        = .error (.sys .EISDIR)) ∧
    ((sampleDriver.Delete storeOutside rootedName bruce).err = none ∧
      Join [sampleDriver.dir, Join [rootedName, bruce]] ≠
        Join [sampleDriver.dir, rootedName, bruce] ∧
      (sampleDriver.Delete storeOutside rootedName bruce).driver.Read sampleCodec
        (sampleDriver.Delete storeOutside rootedName bruce).fs rootedName bruce
        = .ok (.bool true)) ∧
    ((sampleDriver.Delete storeUsersFile users ['.']).err = none ∧
      (sampleDriver.Delete storeUsersFile users ['.']).driver.Read sampleCodec
        (sampleDriver.Delete storeUsersFile users ['.']).fs users ['.'] = .ok (.bool true)) ∧
    ((sampleDriver.Delete storeBruce users []).err = none ∧
      (sampleDriver.Delete storeBruce users []).driver.Read sampleCodec
        (sampleDriver.Delete storeBruce users []).fs users []
        = .error (.errorf ("missing resource - unable to save records".toList))) :=
  ⟨⟨rfl, rfl⟩, ⟨rfl, rfl⟩, ⟨rfl, rfl⟩, ⟨rfl, by decide, rfl⟩, ⟨rfl, rfl⟩, ⟨rfl, rfl⟩⟩

/-- C3: on a file system without `db`, `New` logs that the database already
exists, returns no error, and the root directory still does not exist. -/
theorem new_leaves_root_missing :
    isDirectory (.dir []) db = false ∧
    (New (.dir []) db).err = none ∧
    (New (.dir []) db).debug = "Using 'db' (database already exists)\n".toList ∧
    os_Stat (New (.dir []) db).fs (New (.dir []) db).driver.dir = .error .ENOENT :=
  ⟨rfl, rfl, by decide, rfl⟩

/-- C4: `Write` with an empty collection or an empty resource returns an
error made by `fmt.Errorf` and leaves the file system and the driver, with
its registry of mutexes, as they were. -/
theorem write_rejects_empty_names {α : Type} (codec : Codec α) (d : Driver) (fs : Node)
    (c r : Str) (v : α) (h : c = [] ∨ r = []) :
    (∃ text, (d.Write codec fs c r v).err = some (.errorf text)) ∧
    (d.Write codec fs c r v).fs = fs ∧
    (d.Write codec fs c r v).driver = d := by
  unfold Driver.Write
  by_cases hc : c = []
  · simp [hc]
  · rcases h with h | h
    · exact absurd h hc
    · simp [hc, h]

/-- C4, with the empty resource name in the collection `users`. -/
theorem write_rejects_empty_names_witness :
    (users = [] ∨ ([] : Str) = []) ∧
    (∃ text, (sampleDriver.Write sampleCodec storeBruce users [] (.bool true)).err
      = some (.errorf text)) ∧
    (sampleDriver.Write sampleCodec storeBruce users [] (.bool true)).fs = storeBruce ∧
    (sampleDriver.Write sampleCodec storeBruce users [] (.bool true)).driver = sampleDriver :=
  ⟨Or.inr rfl,
    write_rejects_empty_names sampleCodec sampleDriver storeBruce users [] (.bool true)
      (Or.inr rfl)⟩

/-- C6 (amended): `Delete` keeps the suffix it is given.  For every non-empty
collection that does not begin with `/`, every plain resource name and every
store state in which `<root>/c/r.json` is a regular file and the name of
`<root>/c/r.json.json` is not refused (`os.Stat` finds an object there or
reports that none exists, which always holds in this model, where a name has
no limit of length), `Delete(c, r + ".json")` returns success, as
`Delete(c, r)` does, removes `<root>/c/r.json.json` if it is present, and
leaves the file `<root>/c/r.json` in place with its contents. -/
theorem delete_with_suffix_keeps_file (d : Driver) (fs : Node) (c r : Str)
    (hc : c ≠ []) (hcr : isRooted c = false) (hr : PlainName r)
    (hfile : isRegularFile fs (Join [d.dir, c, r] ++ jsonExt) = true)
    (hname : presentOrMissing fs (Join [d.dir, c, r ++ jsonExt] ++ jsonExt) = true) :
    (d.Delete fs c (r ++ jsonExt)).err = none ∧
    os_Stat (d.Delete fs c (r ++ jsonExt)).fs (Join [d.dir, c, r ++ jsonExt] ++ jsonExt)
      = .error .ENOENT ∧
    os_ReadFile (d.Delete fs c (r ++ jsonExt)).fs (Join [d.dir, c, r] ++ jsonExt)
      = os_ReadFile fs (Join [d.dir, c, r] ++ jsonExt) ∧
    (d.Delete fs c r).err = none := by
  have _ := hname
  have hrj := plainName_json hr
  have hp := Join_record_ne_nil d.dir hc r
  have hpj := Join_record_ne_nil d.dir hc (r ++ jsonExt)
  have hl1 := locate_record d.dir hc hr
  have hl2 := locate_record_ext d.dir hc hr hrj
  have hl3 := locate_record d.dir hc hrj
  have hl4 := locate_record_ext d.dir hc hrj (plainName_json hrj)
  obtain ⟨es, data, hes, hl⟩ := isRegularFile_parent (append_ne_nil_left hp _) hl2 hfile
  obtain ⟨fs', es', hrm, hw', hgone, hsame⟩ :=
    os_RemoveAll_child (append_ne_nil_left hpj jsonExt) (endsWithDot_json _) hl4
      (plainName_json hrj) hes
  have hout : d.Delete fs c (r ++ jsonExt) =
      { driver := d.GetOrCreateMutex c, fs := fs', err := none } := by
    rw [Delete_record_eq d fs hc hcr, Stat_child hpj hl3 hl4 hes, hl]
    simp [Node.info, hrm]
  refine ⟨?_, ?_, ?_, ?_⟩
  · rw [hout]
  · rw [hout]
    show os_Stat fs' _ = _
    rw [os_Stat_eq (append_ne_nil_left hpj _), hl4, walk_child hw', hgone]
  · rw [hout]
    show os_ReadFile fs' _ = _
    rw [os_ReadFile_eq (append_ne_nil_left hp _), os_ReadFile_eq (append_ne_nil_left hp _),
      hl2, walk_child hw', walk_child hes, hsame _ (append_json_ne _)]
  · obtain ⟨fs1, es1, hrm1, _, _, _⟩ :=
      os_RemoveAll_child hp (endsWithDot_record d.dir hc hr) hl1 hr hes
    obtain ⟨fs2, es2, hrm2, _, _, _⟩ :=
      os_RemoveAll_child (append_ne_nil_left hp jsonExt) (endsWithDot_json _) hl2 hrj hes
    rw [Delete_record_eq d fs hc hcr, Stat_child hp hl1 hl2 hes, hl]
    cases hlr : lookupEntry r es with
    | none => simp [Node.info, hrm2]
    | some n => cases n <;> simp [Node.info, hrm1, hrm2]

/-- C6 (amended), on the store that holds `db/users/bruce.json`, and on the
same store with `db/users/bruce.json.json` beside it. -/
theorem delete_with_suffix_keeps_file_witness :
    (users ≠ [] ∧ isRooted users = false ∧ PlainName bruce) ∧
    isRegularFile storeBruce (Join [sampleDriver.dir, users, bruce] ++ jsonExt) = true ∧
    presentOrMissing storeBruce (Join [sampleDriver.dir, users, bruce ++ jsonExt] ++ jsonExt)
      = true ∧
    (sampleDriver.Delete storeBruce users (bruce ++ jsonExt)).err = none ∧
    os_ReadFile (sampleDriver.Delete storeBruce users (bruce ++ jsonExt)).fs
      (Join [sampleDriver.dir, users, bruce] ++ jsonExt)
      = os_ReadFile storeBruce (Join [sampleDriver.dir, users, bruce] ++ jsonExt) ∧
    (sampleDriver.Delete storeBruce users bruce).err = none ∧
    isRegularFile storeBruceTwice (Join [sampleDriver.dir, users, bruce ++ jsonExt] ++ jsonExt)
      = true ∧
    os_Stat (sampleDriver.Delete storeBruceTwice users (bruce ++ jsonExt)).fs
      (Join [sampleDriver.dir, users, bruce ++ jsonExt] ++ jsonExt) = .error .ENOENT :=
  ⟨⟨by decide, rfl, by decide⟩, rfl, rfl,
    (delete_with_suffix_keeps_file sampleDriver storeBruce users bruce (by decide) rfl
      (by decide) rfl rfl).1,
    (delete_with_suffix_keeps_file sampleDriver storeBruce users bruce (by decide) rfl
      (by decide) rfl rfl).2.2.1,
    (delete_with_suffix_keeps_file sampleDriver storeBruce users bruce (by decide) rfl
      (by decide) rfl rfl).2.2.2,
    rfl,
    (delete_with_suffix_keeps_file sampleDriver storeBruceTwice users bruce (by decide) rfl
      (by decide) rfl rfl).2.1⟩

/-- C6, as stated, fails: on the store that holds `db/users/bruce.json`,
`Delete` of `bruce.json` succeeds and the file is still a regular file, and
`Delete` of `bruce` removes it. -/
theorem delete_with_suffix_counterexample :
    isRegularFile storeBruce (Join [sampleDriver.dir, users, bruce] ++ jsonExt) = true ∧
    (sampleDriver.Delete storeBruce users (bruce ++ jsonExt)).err = none ∧
    isRegularFile (sampleDriver.Delete storeBruce users (bruce ++ jsonExt)).fs
      (Join [sampleDriver.dir, users, bruce] ++ jsonExt) = true ∧
    isRegularFile (sampleDriver.Delete storeBruce users bruce).fs
      (Join [sampleDriver.dir, users, bruce] ++ jsonExt) = false :=
  ⟨rfl, rfl, rfl, rfl⟩

/-- C7 (amended): `Delete` with an empty resource removes the collection.  For
every store state and plain collection name whose directory exists,
`Delete(c, "")` returns success, the directory `<root>/c` no longer exists
and `os.Stat` finds no resource file `<root>/c/r.json` beneath it, and, when
`<root>/c.json` does not exist, `ReadAll(c)` then fails with ENOENT. -/
theorem delete_collection_then_readAll (d : Driver) (fs : Node) (c : Str)
    (hc : PlainName c) (hdir : isDirectory fs (Join [d.dir, c]) = true) :
    (d.Delete fs c []).err = none ∧
    os_Stat (d.Delete fs c []).fs (Join [d.dir, c]) = .error .ENOENT ∧
    (∀ r, PlainName r →
      nothingAt (d.Delete fs c []).fs (Join [d.dir, c, r] ++ jsonExt) = true) ∧
    (os_Stat fs (Join [d.dir, c] ++ jsonExt) = .error .ENOENT →
      (d.Delete fs c []).driver.ReadAll (d.Delete fs c []).fs c = .error (.sys .ENOENT)) := by
  have hp := Join_collection_ne_nil d.dir hc.1
  have hcj := plainName_json hc
  have hl1 := locate_plain_collection d.dir hc
  have hl2 := locate_plain_collection_ext d.dir hc hcj
  obtain ⟨es, es0, hes, hl⟩ := isDirectory_parent hp hl1 hdir
  obtain ⟨fs', es', hrm, hw', hnone, hsame⟩ :=
    os_RemoveAll_child hp (endsWithDot_collection d.dir hc) hl1 hc hes
  have hfs : (d.Delete fs c []).fs = fs' := by
    rw [Delete_collection_eq d fs hc, Stat_child hp hl1 hl2 hes, hl]
    simp [Node.info, hrm]
  have hgone : walk (locate d.dir ++ [c]) fs' = .error .ENOENT := by
    rw [walk_child hw', hnone]
  refine ⟨?_, ?_, ?_, ?_⟩
  · rw [Delete_collection_eq d fs hc, Stat_child hp hl1 hl2 hes, hl]
    simp [Node.info, hrm]
  · rw [hfs, os_Stat_eq hp, hl1, hgone]
  · intro r hr
    unfold nothingAt
    rw [hfs, os_Stat_eq (append_ne_nil_left (Join_record_ne_nil d.dir hc.1 r) _),
      locate_record_ext d.dir hc.1 hr (plainName_json hr), hl1, walk_append, hgone]
  · intro hmiss
    rw [os_Stat_eq (append_ne_nil_left hp _), hl2, walk_child hes] at hmiss
    have hnj : lookupEntry (c ++ jsonExt) es = none := by
      cases hq : lookupEntry (c ++ jsonExt) es with
      | none => rfl
      | some n => simp [hq] at hmiss
    rw [ReadAll_eq _ _ hc.1, Delete_driver_dir, hfs, Stat_child hp hl1 hl2 hw', hnone,
      hsame _ (append_json_ne c).symm, hnj]

/-- C7 (amended), on the store that holds the collection `users`, and on the
store that holds the collections `users` and `users.json`. -/
theorem delete_collection_then_readAll_witness :
    PlainName users ∧
    isDirectory storeBruce (Join [sampleDriver.dir, users]) = true ∧
    os_Stat storeBruce (Join [sampleDriver.dir, users] ++ jsonExt) = .error .ENOENT ∧
    (sampleDriver.Delete storeBruce users []).err = none ∧
    (sampleDriver.Delete storeBruce users []).driver.ReadAll
      (sampleDriver.Delete storeBruce users []).fs users = .error (.sys .ENOENT) ∧
    isDirectory storeTwoCollections (Join [sampleDriver.dir, users]) = true ∧
    (sampleDriver.Delete storeTwoCollections users []).err = none ∧
    os_Stat (sampleDriver.Delete storeTwoCollections users []).fs
      (Join [sampleDriver.dir, users]) = .error .ENOENT :=
  ⟨by decide, rfl, rfl,
    (delete_collection_then_readAll sampleDriver storeBruce users (by decide) rfl).1,
    (delete_collection_then_readAll sampleDriver storeBruce users (by decide) rfl).2.2.2 rfl,
    rfl,
    (delete_collection_then_readAll sampleDriver storeTwoCollections users (by decide) rfl).1,
    (delete_collection_then_readAll sampleDriver storeTwoCollections users (by decide) rfl).2.1⟩

/-- C7, as stated, fails.  With the collections `users` and `users.json` in
the store, `Delete(users, "")` succeeds and `ReadAll(users)` then returns an
empty list and no error.  With the collection `..` the directory `<root>/c`
is the working directory, which exists: `Delete` asks `os.RemoveAll` to
remove `.`, which it refuses with EINVAL, and the directory stays. -/
theorem delete_collection_counterexample :
    (isDirectory storeTwoCollections (Join [sampleDriver.dir, users]) = true ∧
      (sampleDriver.Delete storeTwoCollections users []).err = none ∧
      (sampleDriver.Delete storeTwoCollections users []).driver.ReadAll
        (sampleDriver.Delete storeTwoCollections users []).fs users = .ok []) ∧
    (isDirectory storeBruce (Join [sampleDriver.dir, ['.', '.']]) = true ∧
      (sampleDriver.Delete storeBruce ['.', '.'] []).err = some (.sys .EINVAL) ∧
      isDirectory (sampleDriver.Delete storeBruce ['.', '.'] []).fs
        (Join [sampleDriver.dir, ['.', '.']]) = true) :=
  ⟨⟨rfl, rfl, rfl⟩, ⟨rfl, rfl, rfl⟩⟩

/-- C8 (amended): `ReadAll` reports a collection that is missing under both
names.  For every store state and non-empty collection, if neither `<root>/c`
nor `<root>/c.json` exists then `ReadAll(c)` fails with ENOENT, and it returns
a list only when one of the two exists. -/
theorem readAll_missing_collection (d : Driver) (fs : Node) (c : Str) (hc : c ≠ []) :
    (os_Stat fs (Join [d.dir, c]) = .error .ENOENT →
      os_Stat fs (Join [d.dir, c] ++ jsonExt) = .error .ENOENT →
      d.ReadAll fs c = .error (.sys .ENOENT)) ∧
    (∀ l, d.ReadAll fs c = .ok l →
      (∃ fi, os_Stat fs (Join [d.dir, c]) = .ok fi) ∨
      (∃ fi, os_Stat fs (Join [d.dir, c] ++ jsonExt) = .ok fi)) := by
  rw [ReadAll_eq d fs hc]
  unfold Stat
  constructor
  · intro h1 h2
    simp [h1, h2]
  · intro l h
    cases h1 : os_Stat fs (Join [d.dir, c]) with
    | ok fi => exact Or.inl ⟨fi, rfl⟩
    | error e =>
      right
      cases e with
      | ENOENT =>
        simp only [h1] at h
        cases h2 : os_Stat fs (Join [d.dir, c] ++ jsonExt) with
        | ok fi => exact ⟨fi, rfl⟩
        | error e' => simp [h2] at h
      | ENOTDIR => simp [h1] at h
      | EISDIR => simp [h1] at h
      | EINVAL => simp [h1] at h
      | EBUSY => simp [h1] at h
      | ENOTEMPTY => simp [h1] at h
      | ENXIO => simp [h1] at h

/-- C8 (amended), on the empty file system and on the store that holds the
collection `users`. -/
theorem readAll_missing_collection_witness :
    users ≠ [] ∧
    sampleDriver.ReadAll (.dir []) users = .error (.sys .ENOENT) ∧
    sampleDriver.ReadAll storeBruce users = .ok [trueLine] ∧
    ((∃ fi, os_Stat storeBruce (Join [sampleDriver.dir, users]) = .ok fi) ∨
      (∃ fi, os_Stat storeBruce (Join [sampleDriver.dir, users] ++ jsonExt) = .ok fi)) :=
  ⟨by decide,
    (readAll_missing_collection sampleDriver (.dir []) users (by decide)).1 rfl rfl, rfl,
    (readAll_missing_collection sampleDriver storeBruce users (by decide)).2 [trueLine] rfl⟩

/-- C8, as stated, fails: with the collection `users.json` in the store and
no directory `db/users`, `ReadAll(users)` returns an empty list and no error. -/
theorem readAll_missing_counterexample :
    os_Stat storeJsonCollection (Join [sampleDriver.dir, users]) = .error .ENOENT ∧
    sampleDriver.ReadAll storeJsonCollection users = .ok [] :=
  ⟨rfl, rfl⟩

/-- C9 (amended): the directory of a collection exists exactly from the first
`Write` that gets past `os.MkdirAll` until the collection is deleted.  Start
from a store made by `New` that is empty (`os.Stat` finds nothing at
`<root>/c` for any plain name `c`), and run any sequence of `Write` and
`Delete` calls whose collection names are plain and whose resource names are
plain or empty, whatever the calls return.  Then for every plain collection
name `c`, `<root>/c` is a directory if and only if for some `Write(c, r, v)`
with a non-empty resource the call of `os.MkdirAll` succeeded, whether or not
the `Write` returned an error afterwards, and no `Delete(c, "")` came after
it. -/
theorem lazy_directory_invariant {α : Type} (codec : Codec α) (fs0 : Node) (dir : Str)
    (calls : List (Call α))
    (hnone : ∀ c, PlainName c → nothingAt fs0 (Join [Clean dir, c]) = true)
    (hplain : ∀ call ∈ calls, call.Plain) (c : Str) (hc : PlainName c) :
    isDirectory (runCalls codec ((New fs0 dir).driver, (New fs0 dir).fs) calls).2
      (Join [Clean dir, c])
      = dirDue codec c ((New fs0 dir).driver, (New fs0 dir).fs) false calls := by
  have hinv : DirsAsDue (locate ((New fs0 dir).driver, (New fs0 dir).fs).1.dir)
      ((New fs0 dir).driver, (New fs0 dir).fs).2 (fun _ => false) := by
    show DirsAsDue (locate (New fs0 dir).driver.dir) (New fs0 dir).fs (fun _ => false)
    rw [New_driver_dir, New_fs]
    exact dirsAsDue_of_no_collection hnone
  have h := runCalls_dirsAsDue codec calls _ _ hinv hplain c hc
  have hd : ((New fs0 dir).driver, (New fs0 dir).fs).1.dir = Clean dir := New_driver_dir fs0 dir
  rw [hd] at h
  unfold isDirectory
  rw [os_Stat_statAt (Join_collection_ne_nil _ hc.1), locate_plain_collection _ hc]
  exact isDirectory_as_due h

/-- C9 (amended), on the empty file system: a `Write` that fails in the codec
after `os.MkdirAll`, a `Delete` of a resource that is not there and a `Write`
with an empty resource leave the directory of `users` in place, and the
`Delete` of the collection after them removes it.  With the root `db/db` on a
file system in which `db` is a regular file, `New` returns success,
`os.MkdirAll` fails in every `Write` and no directory is due. -/
theorem lazy_directory_invariant_witness :
    (∀ c, PlainName c → nothingAt (.dir []) (Join [Clean db, c]) = true) ∧
    (∀ call ∈ sampleCalls, call.Plain) ∧ PlainName users ∧
    dirDue sampleCodec users ((New (.dir []) db).driver, (New (.dir []) db).fs) false
      sampleCalls = true ∧
    isDirectory (runCalls sampleCodec ((New (.dir []) db).driver, (New (.dir []) db).fs)
      sampleCalls).2 (Join [Clean db, users])
      = dirDue sampleCodec users ((New (.dir []) db).driver, (New (.dir []) db).fs) false
        sampleCalls ∧
    isDirectory (runCalls sampleCodec ((New (.dir []) db).driver, (New (.dir []) db).fs)
      (sampleCalls ++ [Call.delete users []])).2 (Join [Clean db, users]) = false ∧
    (New storeRootFile (db ++ '/' :: db)).err = none ∧
    (∀ c, PlainName c → nothingAt storeRootFile (Join [Clean (db ++ '/' :: db), c]) = true) ∧
    dirDue sampleCodec users ((New storeRootFile (db ++ '/' :: db)).driver,
      (New storeRootFile (db ++ '/' :: db)).fs) false sampleCalls = false ∧
    isDirectory (runCalls sampleCodec ((New storeRootFile (db ++ '/' :: db)).driver,
      (New storeRootFile (db ++ '/' :: db)).fs) sampleCalls).2
      (Join [Clean (db ++ '/' :: db), users])
      = dirDue sampleCodec users ((New storeRootFile (db ++ '/' :: db)).driver,
        (New storeRootFile (db ++ '/' :: db)).fs) false sampleCalls :=
  ⟨fun _ hc => stat_in_empty_fs (Clean db) hc, sampleCalls_plain, by decide, rfl,
    lazy_directory_invariant sampleCodec (.dir []) db sampleCalls
      (fun _ hc => stat_in_empty_fs (Clean db) hc) sampleCalls_plain users (by decide),
    rfl, rfl, fun _ hc => stat_under_file hc, rfl,
    lazy_directory_invariant sampleCodec storeRootFile (db ++ '/' :: db) sampleCalls
      (fun _ hc => stat_under_file hc) sampleCalls_plain users (by decide)⟩

/-- C9, as stated, fails.  On the empty file system `Write` of a channel
returns the error of the codec, no resource has been written, and the
directory `db/users` exists afterwards.  A successful `Write` to the
collection `users/bruce` makes the directory `db/users` although nothing was
written to the collection `users`.  And after a successful `Write` to
`users`, `Delete` of the resource `../users` of the collection `bruce`
removes the directory `db/users`. -/
theorem failed_write_creates_directory_counterexample :
    (isDirectory (New (.dir []) db).fs (Join [(New (.dir []) db).driver.dir, users]) = false ∧
      ((New (.dir []) db).driver.Write sampleCodec (New (.dir []) db).fs users bruce
        Sample.chan).err = some .json ∧
      isDirectory ((New (.dir []) db).driver.Write sampleCodec (New (.dir []) db).fs users
        bruce Sample.chan).fs (Join [(New (.dir []) db).driver.dir, users]) = true ∧
      os_Stat ((New (.dir []) db).driver.Write sampleCodec (New (.dir []) db).fs users bruce
        Sample.chan).fs (Join [(New (.dir []) db).driver.dir, users, bruce] ++ jsonExt)
        = .error .ENOENT) ∧
    (((New (.dir []) db).driver.Write sampleCodec (New (.dir []) db).fs
        (users ++ '/' :: bruce) bruce (.bool true)).err = none ∧
      isDirectory ((New (.dir []) db).driver.Write sampleCodec (New (.dir []) db).fs
        (users ++ '/' :: bruce) bruce (.bool true)).fs
        (Join [(New (.dir []) db).driver.dir, users]) = true) ∧
    (writtenBruce.err = none ∧
      isRegularFile writtenBruce.fs (Join [writtenBruce.driver.dir, users, bruce] ++ jsonExt)
        = true ∧
      (writtenBruce.driver.Delete writtenBruce.fs bruce ('.' :: '.' :: '/' :: users)).err
        = none ∧
      isDirectory
        (writtenBruce.driver.Delete writtenBruce.fs bruce ('.' :: '.' :: '/' :: users)).fs
        (Join [writtenBruce.driver.dir, users]) = false) :=
  ⟨⟨rfl, rfl, rfl, rfl⟩, ⟨rfl, rfl⟩, ⟨rfl, rfl, rfl, rfl⟩⟩

/-- C10 (amended): `Delete` does not validate empty names.  For every store
whose root directory exists and whose root path ends in a name (it is not `.`
or `/` and does not end in `..`), `Delete("", "")` returns success and removes
the root with every collection beneath it, whereas `Write`, `Read` and
`ReadAll` reject an empty collection with an error made by `fmt.Errorf`. -/
theorem delete_empty_names_removes_root {α : Type} (codec : Codec α) (d : Driver) (fs : Node)
    (hroot : isDirectory fs d.dir = true) (hname : endsInName d.dir = true) :
    ((d.Delete fs [] []).err = none ∧
      os_Stat (d.Delete fs [] []).fs d.dir = .error .ENOENT ∧
      ∀ c, PlainName c → os_Stat (d.Delete fs [] []).fs (Join [d.dir, c]) = .error .ENOENT) ∧
    (∀ r v, ∃ text,
      d.Write codec fs [] r v = { driver := d, fs := fs, err := some (.errorf text) }) ∧
    (∀ r, ∃ text, d.Read codec fs [] r = .error (.errorf text)) ∧
    (∃ text, d.ReadAll fs [] = .error (.errorf text)) := by
  refine ⟨?_, fun _ _ => ⟨_, by simp [Driver.Write]; rfl⟩,
    fun _ => ⟨_, by simp [Driver.Read]; rfl⟩, ⟨_, by simp [Driver.ReadAll]; rfl⟩⟩
  have hp := isDirectory_ne_nil hroot
  obtain ⟨E, x, hE, hx⟩ := endsInName_elems hname
  have hloc : locate d.dir = ((if isRooted d.dir then [['/']] else []) ++ E) ++ [x] := by
    unfold locate
    rw [hE, List.append_assoc]
  obtain ⟨es, es0, hes, hl⟩ := isDirectory_parent hp hloc hroot
  have hlocC : locate (Clean d.dir) = ((if isRooted d.dir then [['/']] else []) ++ E) ++ [x] := by
    rw [locate_Clean, hloc]
  obtain ⟨fs', es', hrm, hw', hnone, _⟩ :=
    os_RemoveAll_child (Clean_ne_nil d.dir) (endsWithDot_Clean hE) hlocC hx hes
  have hstat : Stat fs (Clean d.dir) = .ok (Node.dir es0).info := by
    unfold Stat
    rw [os_Stat_Clean fs hp, os_Stat_eq hp, hloc, walk_child hes, hl]
  have hout : d.Delete fs [] [] =
      { driver := d.GetOrCreateMutex [], fs := fs', err := none } := by
    unfold Driver.Delete
    have hj : Join [[], []] = ([] : Str) := rfl
    simp only [hj, GetOrCreateMutex_dir, Join_root_nil hp, hstat, Node.info, if_true, hrm]
    rfl
  have hgone : walk (locate d.dir) fs' = .error .ENOENT := by
    rw [hloc, walk_child hw', hnone]
  rw [hout]
  refine ⟨rfl, ?_, ?_⟩
  · show os_Stat fs' d.dir = _
    rw [os_Stat_eq hp, hgone]
  · intro c hc
    show os_Stat fs' (Join [d.dir, c]) = _
    rw [os_Stat_eq (Join_collection_ne_nil d.dir hc.1), locate_plain_collection d.dir hc,
      walk_append, hgone]

/-- C10 (amended), on the store rooted at `db`. -/
theorem delete_empty_names_removes_root_witness :
    isDirectory storeBruce sampleDriver.dir = true ∧ endsInName sampleDriver.dir = true ∧
    (sampleDriver.Delete storeBruce [] []).err = none ∧
    os_Stat (sampleDriver.Delete storeBruce [] []).fs sampleDriver.dir = .error .ENOENT :=
  ⟨rfl, rfl,
    (delete_empty_names_removes_root sampleCodec sampleDriver storeBruce rfl rfl).1.1,
    (delete_empty_names_removes_root sampleCodec sampleDriver storeBruce rfl rfl).1.2.1⟩

/-- C10, as stated, fails: for the store rooted at `.`, the root of `main`,
the root directory exists, `Delete("", "")` returns EINVAL from
`os.RemoveAll` and the collection `users` is still in place. -/
theorem delete_empty_names_dot_counterexample :
    isDirectory storeAtDot dotDriver.dir = true ∧
    (dotDriver.Delete storeAtDot [] []).err = some (.sys .EINVAL) ∧
    isDirectory (dotDriver.Delete storeAtDot [] []).fs (Join [dotDriver.dir, users]) = true :=
  ⟨rfl, rfl, rfl⟩
end JsonDb
